import Mathlib

/-!
Verification development for the `cl_gibbs_sampler` power-spectrum Gibbs
sampler (`cl_sampler.py`).  The Python source is shallowly embedded:
machine floats become exact rationals, numpy arrays become lists or
functions out of `ℕ`, and the external random streams (numpy's seeded
generator, scipy's inverse-gamma sampler) and the external conjugate
gradient solver are abstract parameters of the chain model.
-/

/-! ### Coefficient indexing (`get_em_ell_idx`, `find_common_true_index`, `get_idx_ml`) -/

/-- One block of the mode enumeration in `get_em_ell_idx`: for a fixed `em`,
the modes `(em, ell)` produced by the inner loop
`for ell in ells_list: if ell >= em: append`. -/
def blockModes (lmax em : ℕ) : List (ℕ × ℕ) :=
  ((List.range (lmax+1)).filter (fun ell => decide (em ≤ ell))).map (fun ell => (em, ell))

/-- The real-slot part of the enumeration built by `get_em_ell_idx`
(first double loop, `em = 0..lmax`). -/
def realModes (lmax : ℕ) : List (ℕ × ℕ) :=
  (List.range (lmax+1)).flatMap (blockModes lmax)

/-- The imaginary-slot part of the enumeration built by `get_em_ell_idx`
(second double loop, `em = 1..lmax`). -/
def imagModes (lmax : ℕ) : List (ℕ × ℕ) :=
  (List.range lmax).flatMap (fun k => blockModes lmax (k+1))

/-- The full `(em, ell)` enumeration of `get_em_ell_idx`: real slots then
imaginary slots. -/
def emEllModes (lmax : ℕ) : List (ℕ × ℕ) :=
  realModes lmax ++ imagModes lmax

/-- Embedding of `get_em_ell_idx(lmax)`: returns the parallel lists
`(ems, ells, idx)`; `idx` is just `0, 1, 2, ...`. -/
def get_em_ell_idx (lmax : ℕ) : List ℕ × List ℕ × List ℕ :=
  ((emEllModes lmax).map Prod.fst, (emEllModes lmax).map Prod.snd,
    List.range (emEllModes lmax).length)

/-- One step of the scan in `find_common_true_index`: record the current
index in the first (resp. second) component when both masks hold and the
index is below (resp. at or above) the real/imag split. -/
def fct_step (split : ℕ) (arr_em arr_ell : List Bool) :
    Option ℕ × Option ℕ → ℕ → Option ℕ × Option ℕ := fun acc i =>
  if arr_em.getD i false && arr_ell.getD i false then
    if i < split then (some i, acc.2) else (acc.1, some i)
  else acc

/-- Embedding of `find_common_true_index(arr_em, arr_ell, lmax)`.  The Python
initial value `[]` (meaning "not found") is modelled as `none`. -/
def find_common_true_index (arr_em arr_ell : List Bool) (lmax : ℕ) :
    Option ℕ × Option ℕ :=
  (List.range arr_em.length).foldl
    (fct_step (((lmax+1)^2 + (lmax+1))/2) arr_em arr_ell) (none, none)

/-- The three consistency asserts at the end of `get_idx_ml`, on one found
index `c`: `c == idx[c]`, `em == ems[c]`, `ell == ells[c]`.  A failing
assert (or an out-of-range access) is modelled by this returning `false`. -/
def idx_ok (em ell : ℤ) (lmax c : ℕ) : Bool :=
  decide ((List.range (emEllModes lmax).length).getD c (c+1) = c) &&
  decide (((((emEllModes lmax).map Prod.fst).getD c 0 : ℕ) : ℤ) = em) &&
  decide (((((emEllModes lmax).map Prod.snd).getD c 0 : ℕ) : ℤ) = ell)

/-- Embedding of `get_idx_ml(em, ell, lmax)`.  Inputs are integers so that
negative modes can be passed, as in Python.  Every fatal Python failure
(the `em ≤ ell` assertion, the `TypeError` raised by `idx[[]]` when no real
match exists, and the consistency asserts on the found indices) is modelled
as `none`.  The returned pair is `(real_index, imag_index_or_none)`. -/
def get_idx_ml (em ell : ℤ) (lmax : ℕ) : Option (ℕ × Option ℕ) :=
  if em ≤ ell then
    match find_common_true_index
        (((emEllModes lmax).map Prod.fst).map (fun e : ℕ => decide ((e : ℤ) = em)))
        (((emEllModes lmax).map Prod.snd).map (fun l : ℕ => decide ((l : ℤ) = ell))) lmax with
    | (none, _) => none
    | (some r, none) => if idx_ok em ell lmax r then some (r, none) else none
    | (some r, some i) =>
        if idx_ok em ell lmax r && idx_ok em ell lmax i then some (r, some i) else none
  else none

/-- Flat length of the first `em` real blocks (the position where block `em`
starts in the real part). -/
def offsetR (lmax em : ℕ) : ℕ :=
  ((List.range em).flatMap (blockModes lmax)).length

/-- Flat length of the first `t` imaginary blocks. -/
def offsetI (lmax t : ℕ) : ℕ :=
  ((List.range t).flatMap (fun k => blockModes lmax (k+1))).length

/-- Closed-form flat position of the real slot of mode `(em, ell)`. -/
def realPos (em ell lmax : ℕ) : ℕ := offsetR lmax em + (ell - em)

/-- Closed-form flat position of the imaginary slot of mode `(em, ell)`
(meaningful for `1 ≤ em`). -/
def imagPos (em ell lmax : ℕ) : ℕ :=
  (realModes lmax).length + (offsetI lmax (em-1) + (ell - em))

/-! Structural lemmas about the enumeration. -/

lemma filter_range_le (em : ℕ) : ∀ n : ℕ,
    (List.range n).filter (fun ell => decide (em ≤ ell)) = List.range' em (n - em)
  | 0 => by simp
  | n+1 => by
      rw [List.range_succ, List.filter_append, filter_range_le em n]
      by_cases h : em ≤ n
      · have hd : (decide (em ≤ n)) = true := by simpa using h
        have hn : n + 1 - em = (n - em) + 1 := by omega
        rw [hn, List.range'_concat]
        simp [hd]
        omega
      · have hd : (decide (em ≤ n)) = false := by simpa using h
        have h1 : n - em = 0 := by omega
        have h2 : n + 1 - em = 0 := by omega
        simp [hd, h1, h2]

lemma blockModes_eq (lmax em : ℕ) :
    blockModes lmax em = (List.range' em (lmax+1-em)).map (fun ell => (em, ell)) := by
  rw [blockModes, filter_range_le]

lemma length_blockModes (lmax em : ℕ) : (blockModes lmax em).length = lmax+1-em := by
  rw [blockModes_eq]; simp

lemma getElem?_blockModes (lmax em j : ℕ) (hj : j < lmax+1-em) :
    (blockModes lmax em)[j]? = some (em, em + j) := by
  rw [blockModes_eq]
  rw [List.getElem?_map]
  rw [List.getElem?_eq_getElem (by simpa using hj)]
  simp [List.getElem_range']

lemma range_split (a b : ℕ) (h : a ≤ b) :
    List.range b = List.range a ++ List.range' a (b - a) := by
  have hb : b = a + (b - a) := by omega
  calc List.range b = List.range (a + (b - a)) := by rw [← hb]
    _ = List.range a ++ List.range' a (b - a) := by
        rw [List.range_add, List.range'_eq_map_range]

lemma flatMap_range_succ {α : Type} (f : ℕ → List α) (k : ℕ) :
    (List.range (k+1)).flatMap f = (List.range k).flatMap f ++ f k := by
  rw [List.range_succ, List.flatMap_append]
  simp

lemma offsetR_succ (lmax k : ℕ) :
    offsetR lmax (k+1) = offsetR lmax k + (lmax+1-k) := by
  unfold offsetR
  rw [flatMap_range_succ, List.length_append, length_blockModes]

lemma offsetI_succ (lmax k : ℕ) :
    offsetI lmax (k+1) = offsetI lmax k + (lmax-k) := by
  unfold offsetI
  rw [flatMap_range_succ, List.length_append, length_blockModes]
  omega

lemma realModes_eq_front (lmax : ℕ) :
    realModes lmax = (List.range (lmax+1)).flatMap (blockModes lmax) := rfl

lemma length_realModes (lmax : ℕ) :
    (realModes lmax).length = offsetR lmax (lmax+1) := rfl

lemma length_imagModes (lmax : ℕ) :
    (imagModes lmax).length = offsetI lmax lmax := rfl

lemma sum_range_sub_mul_two : ∀ n : ℕ, (∑ m ∈ Finset.range n, (n - m)) * 2 = n*(n+1)
  | 0 => by simp
  | n+1 => by
      have hc : ∀ m ∈ Finset.range n, (n + 1 - m) = (n - m) + 1 := by
        intro m hm
        have := Finset.mem_range.mp hm
        omega
      rw [Finset.sum_range_succ, Finset.sum_congr rfl hc, Finset.sum_add_distrib]
      simp only [Finset.sum_const, Finset.card_range, smul_eq_mul, mul_one]
      have h3 : n + 1 - n = 1 := by omega
      rw [h3]
      have ih := sum_range_sub_mul_two n
      have h2 : (n+1)*(n+1+1) = n*(n+1) + 2*(n+1) := by ring
      linarith [ih]

lemma offsetR_eq_sum (lmax : ℕ) : ∀ k : ℕ, offsetR lmax k = ∑ m ∈ Finset.range k, (lmax+1-m)
  | 0 => by simp [offsetR]
  | k+1 => by rw [offsetR_succ, Finset.sum_range_succ, offsetR_eq_sum lmax k]

lemma offsetI_eq_sum (lmax : ℕ) : ∀ k : ℕ, offsetI lmax k = ∑ m ∈ Finset.range k, (lmax-m)
  | 0 => by simp [offsetI]
  | k+1 => by rw [offsetI_succ, Finset.sum_range_succ, offsetI_eq_sum lmax k]

lemma length_realModes_mul_two (lmax : ℕ) :
    (realModes lmax).length * 2 = (lmax+1)*(lmax+2) := by
  rw [length_realModes, offsetR_eq_sum]
  exact sum_range_sub_mul_two (lmax+1)

lemma length_imagModes_mul_two (lmax : ℕ) :
    (imagModes lmax).length * 2 = lmax*(lmax+1) := by
  rw [length_imagModes, offsetI_eq_sum]
  exact sum_range_sub_mul_two lmax

lemma split_eq_length_realModes (lmax : ℕ) :
    ((lmax+1)^2 + (lmax+1))/2 = (realModes lmax).length := by
  have h := length_realModes_mul_two lmax
  have h2 : (lmax+1)^2 + (lmax+1) = (lmax+1)*(lmax+2) := by ring
  omega

lemma length_emEllModes (lmax : ℕ) :
    (emEllModes lmax).length = (lmax+1)^2 := by
  have hr := length_realModes_mul_two lmax
  have hi := length_imagModes_mul_two lmax
  have : (lmax+1)*(lmax+2) + lmax*(lmax+1) = ((lmax+1)^2) * 2 := by ring
  rw [emEllModes, List.length_append]
  omega

lemma getElem?_flatMap_front {α : Type} (f : ℕ → List α) (a b j : ℕ) (hab : a < b)
    (hj : j < (f a).length) :
    ((List.range b).flatMap f)[((List.range a).flatMap f).length + j]? = (f a)[j]? := by
  have hsplit : List.range b = List.range a ++ (List.range' a (b - a)) :=
    range_split a b (by omega)
  rw [hsplit, List.flatMap_append]
  rw [List.getElem?_append_right (Nat.le_add_right _ _)]
  rw [Nat.add_sub_cancel_left]
  have hba : b - a = (b - a - 1) + 1 := by omega
  rw [hba, List.range'_succ, List.flatMap_cons]
  rw [List.getElem?_append_left hj]

lemma getElem?_realModes (lmax em j : ℕ) (hem : em ≤ lmax) (hj : j < lmax+1-em) :
    (realModes lmax)[offsetR lmax em + j]? = some (em, em + j) := by
  have h := getElem?_flatMap_front (blockModes lmax) em (lmax+1) j (by omega)
    (by rw [length_blockModes]; exact hj)
  rw [realModes_eq_front]
  rw [offsetR]
  rw [h, getElem?_blockModes lmax em j hj]

lemma getElem?_imagModes (lmax em j : ℕ) (hem1 : 1 ≤ em) (hem : em ≤ lmax) (hj : j < lmax+1-em) :
    (imagModes lmax)[offsetI lmax (em-1) + j]? = some (em, em + j) := by
  have h := getElem?_flatMap_front (fun k => blockModes lmax (k+1)) (em-1) lmax j
    (by omega) (by rw [length_blockModes]; omega)
  have he : (em - 1) + 1 = em := by omega
  rw [imagModes, offsetI]
  rw [h]
  show (blockModes lmax ((em-1)+1))[j]? = some (em, em + j)
  rw [he]
  exact getElem?_blockModes lmax em j hj

lemma flatMap_decomp {α : Type} (f : ℕ → List α) :
    ∀ (k p : ℕ), p < ((List.range k).flatMap f).length →
      ∃ a j, a < k ∧ j < (f a).length ∧
        p = ((List.range a).flatMap f).length + j
  | 0, p, hp => by simp at hp
  | k+1, p, hp => by
      rw [flatMap_range_succ, List.length_append] at hp
      by_cases h : p < ((List.range k).flatMap f).length
      · obtain ⟨a, j, h1, h2, h3⟩ := flatMap_decomp f k p h
        exact ⟨a, j, by omega, h2, h3⟩
      · exact ⟨k, p - ((List.range k).flatMap f).length, by omega, by omega, by omega⟩

lemma realModes_decomp (lmax p : ℕ) (hp : p < (realModes lmax).length) :
    ∃ em j, em ≤ lmax ∧ j < lmax+1-em ∧ p = offsetR lmax em + j := by
  obtain ⟨a, j, h1, h2, h3⟩ := flatMap_decomp (blockModes lmax) (lmax+1) p hp
  rw [length_blockModes] at h2
  exact ⟨a, j, by omega, h2, h3⟩

lemma imagModes_decomp (lmax p : ℕ) (hp : p < (imagModes lmax).length) :
    ∃ em j, 1 ≤ em ∧ em ≤ lmax ∧ j < lmax+1-em ∧ p = offsetI lmax (em-1) + j := by
  obtain ⟨a, j, h1, h2, h3⟩ := flatMap_decomp (fun k => blockModes lmax (k+1)) lmax p hp
  rw [length_blockModes] at h2
  refine ⟨a+1, j, by omega, by omega, by omega, ?_⟩
  exact h3

lemma realModes_pos_unique (lmax p em ell : ℕ) (hp : p < (realModes lmax).length)
    (h : (realModes lmax)[p]? = some (em, ell)) :
    em ≤ ell ∧ ell ≤ lmax ∧ p = realPos em ell lmax := by
  obtain ⟨e, j, h1, h2, h3⟩ := realModes_decomp lmax p hp
  have hg := getElem?_realModes lmax e j h1 h2
  rw [h3, hg] at h
  have hpe := Option.some.inj h
  have he : e = em := congrArg Prod.fst hpe
  have hl : e + j = ell := congrArg Prod.snd hpe
  subst he
  refine ⟨by omega, by omega, ?_⟩
  rw [realPos]
  omega

lemma imagModes_pos_unique (lmax p em ell : ℕ) (hp : p < (imagModes lmax).length)
    (h : (imagModes lmax)[p]? = some (em, ell)) :
    1 ≤ em ∧ em ≤ ell ∧ ell ≤ lmax ∧ (realModes lmax).length + p = imagPos em ell lmax := by
  obtain ⟨e, j, h0, h1, h2, h3⟩ := imagModes_decomp lmax p hp
  have hg := getElem?_imagModes lmax e j h0 h1 h2
  rw [h3, hg] at h
  have hpe := Option.some.inj h
  have he : e = em := congrArg Prod.fst hpe
  have hl : e + j = ell := congrArg Prod.snd hpe
  subst he
  refine ⟨h0, by omega, by omega, ?_⟩
  rw [imagPos]
  omega

lemma realPos_lt (em ell lmax : ℕ) (h1 : em ≤ ell) (h2 : ell ≤ lmax) :
    realPos em ell lmax < (realModes lmax).length := by
  have hg := getElem?_realModes lmax em (ell - em) (by omega) (by omega)
  have : realPos em ell lmax = offsetR lmax em + (ell - em) := rfl
  rw [this]
  have := List.getElem?_eq_some_iff.mp hg
  exact this.1

lemma getElem?_realModes_pos (em ell lmax : ℕ) (h1 : em ≤ ell) (h2 : ell ≤ lmax) :
    (realModes lmax)[realPos em ell lmax]? = some (em, ell) := by
  have hg := getElem?_realModes lmax em (ell - em) (by omega) (by omega)
  have he : em + (ell - em) = ell := by omega
  rw [he] at hg
  exact hg

lemma imagPos_bounds (em ell lmax : ℕ) (h0 : 1 ≤ em) (h1 : em ≤ ell) (h2 : ell ≤ lmax) :
    (realModes lmax).length ≤ imagPos em ell lmax ∧
      imagPos em ell lmax - (realModes lmax).length < (imagModes lmax).length := by
  have hg := getElem?_imagModes lmax em (ell - em) h0 (by omega) (by omega)
  have hlt := (List.getElem?_eq_some_iff.mp hg).1
  constructor
  · rw [imagPos]; omega
  · rw [imagPos]; omega

lemma getElem?_imagModes_pos (em ell lmax : ℕ) (h0 : 1 ≤ em) (h1 : em ≤ ell) (h2 : ell ≤ lmax) :
    (imagModes lmax)[imagPos em ell lmax - (realModes lmax).length]? = some (em, ell) := by
  have hg := getElem?_imagModes lmax em (ell - em) h0 (by omega) (by omega)
  have he : em + (ell - em) = ell := by omega
  rw [he] at hg
  have hpos : imagPos em ell lmax - (realModes lmax).length = offsetI lmax (em-1) + (ell - em) := by
    rw [imagPos]; omega
  rw [hpos]
  exact hg

/-! The scan in `find_common_true_index` keeps the last index satisfying a
predicate; the two components of the accumulator evolve independently. -/

def lastHit (P : ℕ → Bool) (acc : Option ℕ) (l : List ℕ) : Option ℕ :=
  l.foldl (fun a i => if P i then some i else a) acc

lemma lastHit_cons (P : ℕ → Bool) (acc : Option ℕ) (i : ℕ) (t : List ℕ) :
    lastHit P acc (i :: t) = lastHit P (if P i then some i else acc) t := rfl

lemma lastHit_of_none (P : ℕ → Bool) : ∀ (l : List ℕ) (acc : Option ℕ),
    (∀ i ∈ l, P i = false) → lastHit P acc l = acc
  | [], _, _ => rfl
  | i :: t, acc, h => by
      rw [lastHit_cons, if_neg (by simp [h i (List.mem_cons_self i t)])]
      exact lastHit_of_none P t acc fun j hj => h j (List.mem_cons_of_mem i hj)

lemma lastHit_keep (P : ℕ → Bool) (p : ℕ) : ∀ (l : List ℕ),
    (∀ i ∈ l, P i = true → i = p) → lastHit P (some p) l = some p
  | [], _ => rfl
  | i :: t, h => by
      rw [lastHit_cons]
      by_cases hi : P i = true
      · rw [if_pos hi, h i (List.mem_cons_self i t) hi]
        exact lastHit_keep P p t fun j hj => h j (List.mem_cons_of_mem i hj)
      · rw [if_neg hi]
        exact lastHit_keep P p t fun j hj => h j (List.mem_cons_of_mem i hj)

lemma lastHit_unique (P : ℕ → Bool) (p : ℕ) : ∀ (l : List ℕ) (acc : Option ℕ),
    p ∈ l → P p = true → (∀ i ∈ l, P i = true → i = p) → lastHit P acc l = some p
  | [], _, hmem, _, _ => absurd hmem (List.not_mem_nil p)
  | i :: t, acc, hmem, hP, h => by
      rw [lastHit_cons]
      by_cases hi : P i = true
      · rw [if_pos hi, h i (List.mem_cons_self i t) hi]
        exact lastHit_keep P p t fun j hj => h j (List.mem_cons_of_mem i hj)
      · rw [if_neg hi]
        have hpt : p ∈ t := by
          rcases List.mem_cons.mp hmem with h1 | h1
          · rw [h1] at hP; exact absurd hP hi
          · exact h1
        exact lastHit_unique P p t acc hpt hP fun j hj => h j (List.mem_cons_of_mem i hj)

lemma fct_step_fst (split : ℕ) (ae al : List Bool) (acc : Option ℕ × Option ℕ) (i : ℕ) :
    (fct_step split ae al acc i).1
      = if ((ae.getD i false && al.getD i false) && decide (i < split)) = true
          then some i else acc.1 := by
  rw [fct_step]
  by_cases hm : (ae.getD i false && al.getD i false) = true
  · by_cases hs : i < split
    · rw [if_pos hm, if_pos hs, if_pos (by rw [hm, decide_eq_true hs, Bool.true_and])]
    · rw [if_pos hm, if_neg hs,
        if_neg (fun hcon => hs (of_decide_eq_true ((Bool.and_eq_true _ _).mp hcon).2))]
  · rw [if_neg hm, if_neg (fun hcon => hm ((Bool.and_eq_true _ _).mp hcon).1)]

lemma fct_step_snd (split : ℕ) (ae al : List Bool) (acc : Option ℕ × Option ℕ) (i : ℕ) :
    (fct_step split ae al acc i).2
      = if ((ae.getD i false && al.getD i false) && !decide (i < split)) = true
          then some i else acc.2 := by
  rw [fct_step]
  by_cases hm : (ae.getD i false && al.getD i false) = true
  · by_cases hs : i < split
    · rw [if_pos hm, if_pos hs,
        if_neg (fun hcon => by
          have h2 := ((Bool.and_eq_true _ _).mp hcon).2
          rw [decide_eq_true hs] at h2
          simp at h2)]
    · rw [if_pos hm, if_neg hs,
        if_pos (by rw [hm, decide_eq_false hs, Bool.not_false, Bool.true_and])]
  · rw [if_neg hm, if_neg (fun hcon => hm ((Bool.and_eq_true _ _).mp hcon).1)]

lemma foldl_fct_fst (split : ℕ) (ae al : List Bool) : ∀ (l : List ℕ) (acc : Option ℕ × Option ℕ),
    (l.foldl (fct_step split ae al) acc).1
      = lastHit (fun i => (ae.getD i false && al.getD i false) && decide (i < split)) acc.1 l
  | [], _ => rfl
  | i :: t, acc => by
      rw [List.foldl_cons, lastHit_cons, foldl_fct_fst split ae al t]
      congr 1
      exact fct_step_fst split ae al acc i

lemma foldl_fct_snd (split : ℕ) (ae al : List Bool) : ∀ (l : List ℕ) (acc : Option ℕ × Option ℕ),
    (l.foldl (fct_step split ae al) acc).2
      = lastHit (fun i => (ae.getD i false && al.getD i false) && !decide (i < split)) acc.2 l
  | [], _ => rfl
  | i :: t, acc => by
      rw [List.foldl_cons, lastHit_cons, foldl_fct_snd split ae al t]
      congr 1
      exact fct_step_snd split ae al acc i

/-- The combined boolean mask tested at index `i` inside `get_idx_ml`. -/
def maskB (em ell : ℤ) (lmax i : ℕ) : Bool :=
  (((emEllModes lmax).map Prod.fst).map (fun e : ℕ => decide ((e : ℤ) = em))).getD i false &&
  (((emEllModes lmax).map Prod.snd).map (fun l : ℕ => decide ((l : ℤ) = ell))).getD i false

lemma find_common_true_index_eq (em ell : ℤ) (lmax : ℕ) :
    find_common_true_index
        (((emEllModes lmax).map Prod.fst).map (fun e : ℕ => decide ((e : ℤ) = em)))
        (((emEllModes lmax).map Prod.snd).map (fun l : ℕ => decide ((l : ℤ) = ell))) lmax
      = (lastHit (fun i => maskB em ell lmax i && decide (i < ((lmax+1)^2+(lmax+1))/2))
           none (List.range (emEllModes lmax).length),
         lastHit (fun i => maskB em ell lmax i && !decide (i < ((lmax+1)^2+(lmax+1))/2))
           none (List.range (emEllModes lmax).length)) := by
  rw [find_common_true_index]
  have hlen : ((((emEllModes lmax).map Prod.fst).map (fun e : ℕ => decide ((e : ℤ) = em)))).length
      = (emEllModes lmax).length := by simp
  rw [hlen]
  refine Prod.ext ?_ ?_
  · rw [foldl_fct_fst]; rfl
  · rw [foldl_fct_snd]; rfl

lemma maskB_iff (lmax : ℕ) (em ell : ℤ) (i : ℕ) :
    maskB em ell lmax i = true
      ↔ (∃ e l : ℕ, (emEllModes lmax)[i]? = some (e, l) ∧ (e : ℤ) = em ∧ (l : ℤ) = ell) := by
  rw [maskB, Bool.and_eq_true, List.getD_eq_getElem?_getD, List.getD_eq_getElem?_getD,
    List.getElem?_map, List.getElem?_map, List.getElem?_map, List.getElem?_map]
  cases h : (emEllModes lmax)[i]? with
  | none => simp
  | some pr =>
      simp only [Option.map_some', Option.getD_some, decide_eq_true_eq]
      constructor
      · rintro ⟨he, hl⟩
        exact ⟨pr.1, pr.2, rfl, he, hl⟩
      · rintro ⟨e, l, hpr, he, hl⟩
        have h1 : pr = (e, l) := Option.some.inj hpr
        rw [h1]
        exact ⟨he, hl⟩

lemma length_emEllModes_eq (lmax : ℕ) :
    (emEllModes lmax).length = (realModes lmax).length + (imagModes lmax).length := by
  rw [emEllModes, List.length_append]

lemma getElem?_emEllModes_left (lmax p : ℕ) (hp : p < (realModes lmax).length) :
    (emEllModes lmax)[p]? = (realModes lmax)[p]? := List.getElem?_append_left hp

lemma getElem?_emEllModes_right (lmax p : ℕ) (hp : (realModes lmax).length ≤ p) :
    (emEllModes lmax)[p]? = (imagModes lmax)[p - (realModes lmax).length]? :=
  List.getElem?_append_right hp

lemma emEllModes_at_realPos (em ell lmax : ℕ) (h1 : em ≤ ell) (h2 : ell ≤ lmax) :
    (emEllModes lmax)[realPos em ell lmax]? = some (em, ell) := by
  rw [getElem?_emEllModes_left lmax _ (realPos_lt em ell lmax h1 h2)]
  exact getElem?_realModes_pos em ell lmax h1 h2

lemma emEllModes_at_imagPos (em ell lmax : ℕ) (h0 : 1 ≤ em) (h1 : em ≤ ell) (h2 : ell ≤ lmax) :
    (emEllModes lmax)[imagPos em ell lmax]? = some (em, ell) := by
  obtain ⟨hge, hlt⟩ := imagPos_bounds em ell lmax h0 h1 h2
  rw [getElem?_emEllModes_right lmax _ hge]
  exact getElem?_imagModes_pos em ell lmax h0 h1 h2

lemma idx_ok_of_getElem (zem zell : ℤ) (em ell lmax c : ℕ)
    (hc : (emEllModes lmax)[c]? = some (em, ell)) (he : (em : ℤ) = zem) (hl : (ell : ℤ) = zell) :
    idx_ok zem zell lmax c = true := by
  have hlt : c < (emEllModes lmax).length := (List.getElem?_eq_some_iff.mp hc).1
  rw [idx_ok]
  have h1 : (List.range (emEllModes lmax).length).getD c (c+1) = c := by
    rw [List.getD_eq_getElem?_getD, List.getElem?_range hlt]
    rfl
  have h2 : ((emEllModes lmax).map Prod.fst).getD c 0 = em := by
    rw [List.getD_eq_getElem?_getD, List.getElem?_map, hc]
    rfl
  have h3 : ((emEllModes lmax).map Prod.snd).getD c 0 = ell := by
    rw [List.getD_eq_getElem?_getD, List.getElem?_map, hc]
    rfl
  rw [h1, h2, h3, he, hl]
  simp

lemma maskB_true_of (lmax : ℕ) (zem zell : ℤ) (em ell i : ℕ)
    (h : (emEllModes lmax)[i]? = some (em, ell)) (he : (em : ℤ) = zem) (hl : (ell : ℤ) = zell) :
    maskB zem zell lmax i = true :=
  (maskB_iff lmax zem zell i).mpr ⟨em, ell, h, he, hl⟩

/-- Key characterization: on a valid mode `0 ≤ em ≤ ell ≤ lmax`, `get_idx_ml`
returns the closed-form real slot and (for `em ≥ 1`) imaginary slot. -/
theorem get_idx_ml_valid (em ell lmax : ℕ) (h1 : em ≤ ell) (h2 : ell ≤ lmax) :
    get_idx_ml em ell lmax
      = some (realPos em ell lmax,
          if em = 0 then none else some (imagPos em ell lmax)) := by
  have hle : (em : ℤ) ≤ (ell : ℤ) := by exact_mod_cast h1
  have hsplit := split_eq_length_realModes lmax
  have htot := length_emEllModes_eq lmax
  have hrlt := realPos_lt em ell lmax h1 h2
  -- the scan finds exactly the real slot in the first component
  have hR : lastHit (fun i => maskB em ell lmax i && decide (i < ((lmax+1)^2+(lmax+1))/2))
      none (List.range (emEllModes lmax).length) = some (realPos em ell lmax) := by
    apply lastHit_unique
    · exact List.mem_range.mpr (by omega)
    · rw [Bool.and_eq_true]
      refine ⟨maskB_true_of lmax em ell em ell _ (emEllModes_at_realPos em ell lmax h1 h2) rfl rfl, ?_⟩
      exact decide_eq_true (by omega)
    · intro i hi hP
      rw [Bool.and_eq_true] at hP
      obtain ⟨e, l, hel, hee, hll⟩ := (maskB_iff lmax em ell i).mp hP.1
      have hie : e = em := by exact_mod_cast hee
      have hil : l = ell := by exact_mod_cast hll
      have hilt : i < (realModes lmax).length := by
        have := of_decide_eq_true hP.2
        omega
      rw [getElem?_emEllModes_left lmax i hilt] at hel
      have := realModes_pos_unique lmax i e l hilt hel
      rw [hie, hil] at this
      exact this.2.2
  by_cases hem : em = 0
  · -- no imaginary slot: the second scan finds nothing
    have hI : lastHit (fun i => maskB em ell lmax i && !decide (i < ((lmax+1)^2+(lmax+1))/2))
        none (List.range (emEllModes lmax).length) = none := by
      apply lastHit_of_none
      intro i hi
      cases hPi : (maskB em ell lmax i && !decide (i < ((lmax+1)^2+(lmax+1))/2)) with
      | false => rfl
      | true =>
          exfalso
          rw [Bool.and_eq_true] at hPi
          obtain ⟨e, l, hel, hee, hll⟩ := (maskB_iff lmax em ell i).mp hPi.1
          have hige : (realModes lmax).length ≤ i := by
            rcases Nat.lt_or_ge i (realModes lmax).length with hlt | hge
            · have : decide (i < ((lmax+1)^2+(lmax+1))/2) = true := decide_eq_true (by omega)
              rw [this] at hPi
              simp at hPi
            · exact hge
          have hibnd : i - (realModes lmax).length < (imagModes lmax).length := by
            have := List.mem_range.mp hi
            omega
          rw [getElem?_emEllModes_right lmax i hige] at hel
          have hu := imagModes_pos_unique lmax (i - (realModes lmax).length) e l hibnd hel
          have : e = em := by exact_mod_cast hee
          omega
    rw [get_idx_ml, if_pos hle, find_common_true_index_eq, hR, hI, if_pos hem]
    show (if idx_ok (em : ℤ) (ell : ℤ) lmax (realPos em ell lmax) = true
        then some (realPos em ell lmax, (none : Option ℕ)) else none)
      = some (realPos em ell lmax, (none : Option ℕ))
    rw [if_pos (idx_ok_of_getElem em ell em ell lmax _
      (emEllModes_at_realPos em ell lmax h1 h2) rfl rfl)]
  · -- em ≥ 1: the second scan finds exactly the imaginary slot
    have hm1 : 1 ≤ em := by omega
    obtain ⟨hige, hibnd⟩ := imagPos_bounds em ell lmax hm1 h1 h2
    have hI : lastHit (fun i => maskB em ell lmax i && !decide (i < ((lmax+1)^2+(lmax+1))/2))
        none (List.range (emEllModes lmax).length) = some (imagPos em ell lmax) := by
      apply lastHit_unique
      · exact List.mem_range.mpr (by omega)
      · rw [Bool.and_eq_true]
        refine ⟨maskB_true_of lmax em ell em ell _
          (emEllModes_at_imagPos em ell lmax hm1 h1 h2) rfl rfl, ?_⟩
        rw [decide_eq_false (by omega : ¬ (imagPos em ell lmax < ((lmax+1)^2+(lmax+1))/2))]
        rfl
      · intro i hi hP
        rw [Bool.and_eq_true] at hP
        obtain ⟨e, l, hel, hee, hll⟩ := (maskB_iff lmax em ell i).mp hP.1
        have hie : e = em := by exact_mod_cast hee
        have hil : l = ell := by exact_mod_cast hll
        have hige2 : (realModes lmax).length ≤ i := by
          rcases Nat.lt_or_ge i (realModes lmax).length with hlt | hge
          · have : decide (i < ((lmax+1)^2+(lmax+1))/2) = true := decide_eq_true (by omega)
            rw [this] at hP
            simp at hP
          · exact hge
        have hibnd2 : i - (realModes lmax).length < (imagModes lmax).length := by
          have := List.mem_range.mp hi
          omega
        rw [getElem?_emEllModes_right lmax i hige2] at hel
        have hu := imagModes_pos_unique lmax (i - (realModes lmax).length) e l hibnd2 hel
        rw [hie, hil] at hu
        omega
    rw [get_idx_ml, if_pos hle, find_common_true_index_eq, hR, hI, if_neg hem]
    show (if (idx_ok (em : ℤ) (ell : ℤ) lmax (realPos em ell lmax)
            && idx_ok (em : ℤ) (ell : ℤ) lmax (imagPos em ell lmax)) = true
        then some (realPos em ell lmax, some (imagPos em ell lmax)) else none)
      = some (realPos em ell lmax, some (imagPos em ell lmax))
    rw [if_pos (show (idx_ok (em : ℤ) (ell : ℤ) lmax (realPos em ell lmax)
        && idx_ok (em : ℤ) (ell : ℤ) lmax (imagPos em ell lmax)) = true by
      rw [Bool.and_eq_true]
      exact ⟨idx_ok_of_getElem em ell em ell lmax _
          (emEllModes_at_realPos em ell lmax h1 h2) rfl rfl,
        idx_ok_of_getElem em ell em ell lmax _
          (emEllModes_at_imagPos em ell lmax hm1 h1 h2) rfl rfl⟩)]

/-- Key characterization: on an invalid mode (negative `em` or `ell`,
`em > ell`, or `ell > lmax`) `get_idx_ml` fails. -/
theorem get_idx_ml_invalid (em ell : ℤ) (lmax : ℕ)
    (h : ¬(0 ≤ em ∧ em ≤ ell ∧ ell ≤ (lmax : ℤ))) :
    get_idx_ml em ell lmax = none := by
  by_cases hle : em ≤ ell
  · have hbad : em < 0 ∨ (lmax : ℤ) < ell := by omega
    have hR : lastHit (fun i => maskB em ell lmax i && decide (i < ((lmax+1)^2+(lmax+1))/2))
        none (List.range (emEllModes lmax).length) = none := by
      apply lastHit_of_none
      intro i hi
      cases hPi : (maskB em ell lmax i && decide (i < ((lmax+1)^2+(lmax+1))/2)) with
      | false => rfl
      | true =>
          exfalso
          rw [Bool.and_eq_true] at hPi
          obtain ⟨e, l, hel, hee, hll⟩ := (maskB_iff lmax em ell i).mp hPi.1
          have hilt : i < (realModes lmax).length := by
            have := of_decide_eq_true hPi.2
            have := split_eq_length_realModes lmax
            omega
          rw [getElem?_emEllModes_left lmax i hilt] at hel
          have hu := realModes_pos_unique lmax i e l hilt hel
          rcases hbad with hb | hb
          · omega
          · have : (l : ℤ) ≤ (lmax : ℤ) := by exact_mod_cast hu.2.1
            omega
    rw [get_idx_ml, if_pos hle, find_common_true_index_eq, hR]
  · rw [get_idx_ml, if_neg hle]

/-! ### Realified vector and HEALPix-style complex half-sphere conversions
(`alms2healpy`, `healpy2alms`) -/

/-- Modelled from healpy (external collaborator): `hp.sphtfunc.Alm.getlmax(s)`
recovers `lmax` from the array size `s = (lmax+1)(lmax+2)/2` of a complex
half-sphere coefficient array. -/
def Alm_getlmax (s : ℕ) : ℕ := (Nat.sqrt (1 + 8*s) - 3)/2

/-- Embedding of `alms2healpy(alms, lmax)`: complex entries are pairs
`(re, im)` of rationals; the real half is the first
`(len + lmax + 1)/2` entries, zeros are reinserted for the missing
`em = 0` imaginary parts. -/
def alms2healpy (alms : List ℚ) (lmax : ℕ) : List (ℚ × ℚ) :=
  (alms.take ((alms.length + (lmax+1))/2)).zip
    (List.replicate (lmax+1) (0:ℚ) ++ alms.drop ((alms.length + (lmax+1))/2))

/-- Embedding of `healpy2alms(healpy_modes)`: real parts, then imaginary
parts with the leading `lmax+1` entries (the `em = 0` modes) removed. -/
def healpy2alms (healpy_modes : List (ℚ × ℚ)) : List ℚ :=
  (healpy_modes.map Prod.fst)
    ++ (healpy_modes.map Prod.snd).drop (Alm_getlmax healpy_modes.length + 1)

lemma Alm_getlmax_triangle (L : ℕ) : Alm_getlmax ((L+1)*(L+2)/2) = L := by
  obtain ⟨t, ht⟩ := Nat.even_mul_succ_self (L+1)
  have hA : (L+1)*(L+2) = t + t := by linarith [ht]
  have hid : (2*L+3)*(2*L+3) = 4*((L+1)*(L+2)) + 1 := by ring
  have h8 : 1 + 8*((L+1)*(L+2)/2) = (2*L+3)*(2*L+3) := by omega
  rw [Alm_getlmax, h8, Nat.sqrt_eq]
  omega

lemma healpy2alms_alms2healpy (lmax : ℕ) (a : List ℚ) (ha : a.length = (lmax+1)^2) :
    healpy2alms (alms2healpy a lmax) = a := by
  obtain ⟨t, ht⟩ := Nat.even_mul_succ_self (lmax+1)
  have hA : (lmax+1)*(lmax+2) = t + t := by linarith [ht]
  have hsq : (lmax+1)^2 + (lmax+1) = (lmax+1)*(lmax+2) := by ring
  have hs : lmax+1 ≤ (lmax+1)^2 := Nat.le_self_pow (by norm_num) _
  set split := (a.length + (lmax+1))/2 with hsplit
  have hsv : split * 2 = (lmax+1)*(lmax+2) := by omega
  have hsle : split ≤ a.length := by omega
  have hre : (a.take split).length = split := by
    rw [List.length_take]
    omega
  have him : (List.replicate (lmax+1) (0:ℚ) ++ a.drop split).length = split := by
    rw [List.length_append, List.length_replicate, List.length_drop]
    omega
  have hzlen : (alms2healpy a lmax).length = split := by
    rw [alms2healpy, List.length_zip, hre, him]
    simp
  have hLrec : Alm_getlmax (alms2healpy a lmax).length = lmax := by
    rw [hzlen]
    have : split = (lmax+1)*(lmax+2)/2 := by omega
    rw [this]
    exact Alm_getlmax_triangle lmax
  rw [healpy2alms, hLrec, alms2healpy]
  rw [List.map_fst_zip _ _ (by rw [hre, him]), List.map_snd_zip _ _ (by rw [hre, him])]
  have hdrop : (List.replicate (lmax+1) (0:ℚ) ++ a.drop split).drop (lmax+1)
      = a.drop split :=
    List.drop_left' (List.length_replicate _ _)
  rw [hdrop, List.take_append_drop]

lemma alms2healpy_healpy2alms (lmax : ℕ) (h : List (ℚ × ℚ))
    (hlen : h.length = (lmax+1)*(lmax+2)/2)
    (h0 : ∀ p ∈ h.take (lmax+1), p.2 = 0) :
    alms2healpy (healpy2alms h) lmax = h := by
  obtain ⟨t, ht⟩ := Nat.even_mul_succ_self (lmax+1)
  have hA : (lmax+1)*(lmax+2) = t + t := by linarith [ht]
  have hsq : (lmax+1)^2 + (lmax+1) = (lmax+1)*(lmax+2) := by ring
  have hs : lmax+1 ≤ (lmax+1)^2 := Nat.le_self_pow (by norm_num) _
  have hlen2 : h.length * 2 = (lmax+1)*(lmax+2) := by omega
  have hL : Alm_getlmax h.length = lmax := by
    rw [hlen]
    exact Alm_getlmax_triangle lmax
  have hhge : lmax + 1 ≤ h.length := by omega
  have halen : (healpy2alms h).length = h.length * 2 - (lmax+1) := by
    rw [healpy2alms, hL, List.length_append, List.length_map, List.length_drop,
      List.length_map]
    omega
  have hsplit : ((healpy2alms h).length + (lmax+1))/2 = h.length := by omega
  rw [alms2healpy, hsplit]
  have htake : (healpy2alms h).take h.length = h.map Prod.fst := by
    rw [healpy2alms, hL]
    exact List.take_left' (List.length_map _ _)
  have hdrop : (healpy2alms h).drop h.length = (h.map Prod.snd).drop (lmax+1) := by
    rw [healpy2alms, hL]
    exact List.drop_left' (List.length_map _ _)
  rw [htake, hdrop]
  have hsnd : List.replicate (lmax+1) (0:ℚ) ++ (h.map Prod.snd).drop (lmax+1)
      = h.map Prod.snd := by
    have hrep : (h.map Prod.snd).take (lmax+1) = List.replicate (lmax+1) (0:ℚ) := by
      rw [List.eq_replicate_iff]
      constructor
      · rw [List.length_take, List.length_map]
        omega
      · intro b hb
        rw [← List.map_take] at hb
        obtain ⟨p, hp, hpb⟩ := List.mem_map.mp hb
        rw [← hpb]
        exact h0 p hp
    rw [← hrep, List.take_append_drop]
  rw [hsnd, List.zip_map']
  simp

/-! ### Power-spectrum sufficient statistics and conjugate draws
(`get_sigma_ell`, `get_cl_samples`) -/

/-- Embedding of `get_sigma_ell(alms, lmax)`.  The realified coefficient
vector is a function from flat slot to value.  The `none` fallbacks are
unreachable for `1 ≤ ell ≤ lmax` (`get_idx_ml` succeeds there, proved
above); they mirror a Python crash that cannot happen in this loop. -/
def get_sigma_ell (alms : ℕ → ℚ) (lmax : ℕ) : List ℚ :=
  (List.range lmax).map (fun k : ℕ =>
    let s0 : ℚ :=
      match get_idx_ml 0 (((k:ℕ)+1 : ℕ) : ℤ) lmax with
      | some (r, _) => alms r * alms r
      | none => 0
    let s : ℚ := (List.range (k+1)).foldl (fun (acc : ℚ) (j : ℕ) =>
      match get_idx_ml (((j:ℕ)+1 : ℕ) : ℤ) (((k:ℕ)+1 : ℕ) : ℤ) lmax with
      | some (r, some i) => acc + 2*(alms r * alms r + alms i * alms i)
      | _ => acc) s0
    s / (2*(((k:ℕ)+1 : ℕ) : ℚ)+1))

/-- Embedding of `get_cl_samples(alms, lmax, random_seed, ...)`.  The seeded
scipy sampler `invgamma.rvs` is an abstract function
`rvs shape loc scale`; the vectorized call maps it over the shape array
`a = (2*ell-1)/2` for `ell = 1..lmax`, and the result is rescaled by
`sigma_ell * (2*ell+1)/2`.  The hdf5 output is dropped. -/
def get_cl_samples (alms : ℕ → ℚ) (lmax : ℕ) (rvs : ℚ → ℚ → ℚ → ℚ) : List ℚ :=
  (List.range lmax).map (fun k : ℕ =>
    rvs ((2*(((k:ℕ)+1 : ℕ) : ℚ) - 1)/2) 0 1
      * ((get_sigma_ell alms lmax).getD k 0 * (2*(((k:ℕ)+1 : ℕ) : ℚ)+1)/2))

/-- The spec formula for `sigma_ell`:
`(1/(2 ell + 1)) * (a(0,ell)^2 + 2 * sum over em = 1..ell of
(a_re(em,ell)^2 + a_im(em,ell)^2))`, written with the closed-form slot
positions of the realified vector. -/
def sigma_ell_spec (alms : ℕ → ℚ) (lmax ell : ℕ) : ℚ :=
  (1/(2*(ell:ℚ)+1)) * ((alms (realPos 0 ell lmax))^2
    + 2 * ∑ em ∈ Finset.Icc 1 ell,
        ((alms (realPos em ell lmax))^2 + (alms (imagPos em ell lmax))^2))

lemma list_sum_range_eq (g : ℕ → ℚ) (n : ℕ) :
    ((List.range n).map g).sum = ∑ j ∈ Finset.range n, g j := by
  induction n with
  | zero => simp
  | succ n ih =>
      rw [List.range_succ, List.map_append, List.sum_append, Finset.sum_range_succ, ih]
      simp

lemma sum_Icc_one_eq (f : ℕ → ℚ) (n : ℕ) :
    ∑ em ∈ Finset.Icc 1 n, f em = ∑ j ∈ Finset.range n, f (j+1) := by
  induction n with
  | zero => simp
  | succ n ih =>
      rw [Finset.sum_range_succ, ← ih, Finset.sum_Icc_succ_top (by omega)]

lemma sigma_fold_eq (alms : ℕ → ℚ) (lmax ell : ℕ) (hell : ell ≤ lmax) :
    ∀ (l : List ℕ) (init : ℚ), (∀ j ∈ l, j + 1 ≤ ell) →
      l.foldl (fun (acc : ℚ) (j : ℕ) =>
        match get_idx_ml (((j:ℕ)+1 : ℕ) : ℤ) ((ell : ℕ) : ℤ) lmax with
        | some (r, some i) => acc + 2*(alms r * alms r + alms i * alms i)
        | _ => acc) init
      = init + (l.map (fun j : ℕ =>
          2*((alms (realPos (j+1) ell lmax))^2 + (alms (imagPos (j+1) ell lmax))^2))).sum
  | [], init, _ => by simp
  | j :: t, init, hv => by
      rw [List.foldl_cons]
      have hj : j + 1 ≤ ell := hv j (List.mem_cons_self j t)
      have hvalid := get_idx_ml_valid (j+1) ell lmax hj hell
      have hstep : (match get_idx_ml (((j:ℕ)+1 : ℕ) : ℤ) ((ell : ℕ) : ℤ) lmax with
          | some (r, some i) => init + 2*(alms r * alms r + alms i * alms i)
          | _ => init)
          = init + 2*((alms (realPos (j+1) ell lmax))^2 + (alms (imagPos (j+1) ell lmax))^2) := by
        rw [hvalid, if_neg (by omega : ¬ j + 1 = 0)]
        show init + 2*(alms (realPos (j+1) ell lmax) * alms (realPos (j+1) ell lmax)
          + alms (imagPos (j+1) ell lmax) * alms (imagPos (j+1) ell lmax)) = _
        ring
      rw [hstep, sigma_fold_eq alms lmax ell hell t _
        (fun x hx => hv x (List.mem_cons_of_mem j hx))]
      rw [List.map_cons, List.sum_cons]
      ring

lemma get_sigma_ell_getD (alms : ℕ → ℚ) (lmax k : ℕ) (hk : k < lmax) :
    (get_sigma_ell alms lmax).getD k 0 = sigma_ell_spec alms lmax (k+1) := by
  rw [get_sigma_ell, List.getD_eq_getElem?_getD, List.getElem?_map,
    List.getElem?_range hk]
  have hv0 := get_idx_ml_valid 0 (k+1) lmax (by omega) (by omega)
  rw [Nat.cast_zero] at hv0
  show ((List.range (k+1)).foldl (fun (acc : ℚ) (j : ℕ) =>
      match get_idx_ml (((j:ℕ)+1 : ℕ) : ℤ) (((k:ℕ)+1 : ℕ) : ℤ) lmax with
      | some (r, some i) => acc + 2*(alms r * alms r + alms i * alms i)
      | _ => acc) (match get_idx_ml 0 (((k:ℕ)+1 : ℕ) : ℤ) lmax with
      | some (r, _) => alms r * alms r
      | none => 0)) / (2*(((k:ℕ)+1 : ℕ) : ℚ)+1) = sigma_ell_spec alms lmax (k+1)
  have hs0 : (match get_idx_ml 0 (((k:ℕ)+1 : ℕ) : ℤ) lmax with
      | some (r, _) => alms r * alms r
      | none => 0)
      = alms (realPos 0 (k+1) lmax) * alms (realPos 0 (k+1) lmax) := by
    rw [hv0]
  have hfold := sigma_fold_eq alms lmax (k+1) (by omega) (List.range (k+1))
    (match get_idx_ml 0 (((k:ℕ)+1 : ℕ) : ℤ) lmax with
      | some (r, _) => alms r * alms r
      | none => 0)
    (fun j hj => by have := List.mem_range.mp hj; omega)
  rw [hfold, hs0, list_sum_range_eq, sigma_ell_spec, sum_Icc_one_eq]
  have hcast : ((k+1 : ℕ) : ℚ) = (k:ℚ)+1 := by push_cast; ring
  rw [hcast, ← Finset.mul_sum]
  ring

/-! ### Covariance updater (`set_signal_cov_by_cl`) -/

/-- One inner-loop step of `set_signal_cov_by_cl` (fixed `ell`, loop index
`j` with `em = j+1`): set both the real and the imaginary slot of
`(em, ell)` to `0.5 * cl_samples[ell-1]`. -/
def ssc_inner_step (cl : List ℚ) (lmax ell : ℕ) (sc2 : ℕ → ℚ) (j : ℕ) : ℕ → ℚ :=
  match get_idx_ml (((j:ℕ)+1 : ℕ) : ℤ) ((ell : ℕ) : ℤ) lmax with
  | some (r, some i) =>
      Function.update (Function.update sc2 r ((1:ℚ)/2 * cl.getD (ell-1) 0)) i
        ((1:ℚ)/2 * cl.getD (ell-1) 0)
  | _ => sc2

/-- The inner loop of `set_signal_cov_by_cl` over `em = 1..ell`. -/
def ssc_inner (cl : List ℚ) (lmax ell : ℕ) (sc : ℕ → ℚ) : ℕ → ℚ :=
  (List.range ell).foldl (ssc_inner_step cl lmax ell) sc

/-- One outer-loop step (`ell = k+1`): first the `em = 0` real slot, then
the inner loop. -/
def ssc_outer_step (cl : List ℚ) (lmax : ℕ) (sc : ℕ → ℚ) (k : ℕ) : ℕ → ℚ :=
  ssc_inner cl lmax (k+1)
    (match get_idx_ml 0 (((k:ℕ)+1 : ℕ) : ℤ) lmax with
     | some (r, _) => Function.update sc r ((1:ℚ)/2 * cl.getD ((k+1)-1) 0)
     | none => sc)

/-- Embedding of `set_signal_cov_by_cl(prior_cov, cl_samples, lmax)`:
`signal_cov = prior_cov.copy()` followed by the double loop over
`ell = 1..lmax` and `em = 0..ell`.  Covariance vectors are functions from
flat slot to value; numpy's copy-then-write is functional update, so the
supplied `prior_cov` is untouched by construction. -/
def set_signal_cov_by_cl (prior_cov : ℕ → ℚ) (cl_samples : List ℚ) (lmax : ℕ) : ℕ → ℚ :=
  (List.range lmax).foldl (ssc_outer_step cl_samples lmax) prior_cov

lemma realPos_ne_imagPos (em ell em' ell' lmax : ℕ) (h1 : em ≤ ell) (h2 : ell ≤ lmax)
    (h0' : 1 ≤ em') (h1' : em' ≤ ell') (h2' : ell' ≤ lmax) :
    realPos em ell lmax ≠ imagPos em' ell' lmax := by
  have ha := realPos_lt em ell lmax h1 h2
  have hb := (imagPos_bounds em' ell' lmax h0' h1' h2').1
  omega

lemma ssc_inner_step_eq_updates (cl : List ℚ) (lmax ell j : ℕ)
    (hj : j+1 ≤ ell) (hell : ell ≤ lmax) (sc : ℕ → ℚ) :
    ssc_inner_step cl lmax ell sc j
      = Function.update
          (Function.update sc (realPos (j+1) ell lmax) ((1:ℚ)/2 * cl.getD (ell-1) 0))
          (imagPos (j+1) ell lmax) ((1:ℚ)/2 * cl.getD (ell-1) 0) := by
  unfold ssc_inner_step
  rw [get_idx_ml_valid (j+1) ell lmax hj hell, if_neg (by omega : ¬ j+1 = 0)]

lemma ssc_inner_step_hit (cl : List ℚ) (lmax ell j : ℕ)
    (hj : j+1 ≤ ell) (hell : ell ≤ lmax) (sc : ℕ → ℚ) (q : ℕ)
    (hq : q = realPos (j+1) ell lmax ∨ q = imagPos (j+1) ell lmax) :
    ssc_inner_step cl lmax ell sc j q = (1:ℚ)/2 * cl.getD (ell-1) 0 := by
  rw [ssc_inner_step_eq_updates cl lmax ell j hj hell sc]
  rcases hq with h | h
  · subst h
    rw [Function.update_noteq
      (realPos_ne_imagPos (j+1) ell (j+1) ell lmax hj hell (by omega) hj hell)]
    rw [Function.update_same]
  · subst h
    rw [Function.update_same]

lemma ssc_inner_step_ne (cl : List ℚ) (lmax ell j : ℕ)
    (hj : j+1 ≤ ell) (hell : ell ≤ lmax) (sc : ℕ → ℚ) (q : ℕ)
    (hq1 : q ≠ realPos (j+1) ell lmax) (hq2 : q ≠ imagPos (j+1) ell lmax) :
    ssc_inner_step cl lmax ell sc j q = sc q := by
  rw [ssc_inner_step_eq_updates cl lmax ell j hj hell sc,
    Function.update_noteq hq2, Function.update_noteq hq1]

lemma ssc_inner_go_ne (cl : List ℚ) (lmax ell : ℕ) (hell : ell ≤ lmax) (q : ℕ) :
    ∀ (l : List ℕ) (sc : ℕ → ℚ), (∀ j ∈ l, j + 1 ≤ ell) →
      (∀ j ∈ l, q ≠ realPos (j+1) ell lmax ∧ q ≠ imagPos (j+1) ell lmax) →
      (l.foldl (ssc_inner_step cl lmax ell) sc) q = sc q
  | [], _, _, _ => rfl
  | j :: t, sc, hv, hq => by
      rw [List.foldl_cons]
      rw [ssc_inner_go_ne cl lmax ell hell q t _
        (fun x hx => hv x (List.mem_cons_of_mem j hx))
        (fun x hx => hq x (List.mem_cons_of_mem j hx))]
      exact ssc_inner_step_ne cl lmax ell j (hv j (List.mem_cons_self j t)) hell sc q
        (hq j (List.mem_cons_self j t)).1 (hq j (List.mem_cons_self j t)).2

lemma ssc_inner_go_keep (cl : List ℚ) (lmax ell : ℕ) (hell : ell ≤ lmax) (q : ℕ) :
    ∀ (l : List ℕ) (sc : ℕ → ℚ), (∀ j ∈ l, j + 1 ≤ ell) →
      sc q = (1:ℚ)/2 * cl.getD (ell-1) 0 →
      (l.foldl (ssc_inner_step cl lmax ell) sc) q = (1:ℚ)/2 * cl.getD (ell-1) 0
  | [], _, _, hsc => hsc
  | j :: t, sc, hv, hsc => by
      rw [List.foldl_cons]
      apply ssc_inner_go_keep cl lmax ell hell q t _
        (fun x hx => hv x (List.mem_cons_of_mem j hx))
      by_cases h1 : q = realPos (j+1) ell lmax ∨ q = imagPos (j+1) ell lmax
      · exact ssc_inner_step_hit cl lmax ell j (hv j (List.mem_cons_self j t)) hell sc q h1
      · push_neg at h1
        rw [ssc_inner_step_ne cl lmax ell j (hv j (List.mem_cons_self j t)) hell sc q h1.1 h1.2]
        exact hsc

lemma ssc_inner_go_hit (cl : List ℚ) (lmax ell : ℕ) (hell : ell ≤ lmax) (q : ℕ) :
    ∀ (l : List ℕ) (sc : ℕ → ℚ), (∀ j ∈ l, j + 1 ≤ ell) →
      ∀ j0 ∈ l, (q = realPos (j0+1) ell lmax ∨ q = imagPos (j0+1) ell lmax) →
      (l.foldl (ssc_inner_step cl lmax ell) sc) q = (1:ℚ)/2 * cl.getD (ell-1) 0
  | [], _, _, j0, hj0, _ => absurd hj0 (List.not_mem_nil j0)
  | j :: t, sc, hv, j0, hj0, hq => by
      rw [List.foldl_cons]
      by_cases hjj : j0 = j
      · subst hjj
        apply ssc_inner_go_keep cl lmax ell hell q t _
          (fun x hx => hv x (List.mem_cons_of_mem j0 hx))
        exact ssc_inner_step_hit cl lmax ell j0 (hv j0 (List.mem_cons_self j0 t)) hell sc q hq
      · have hj0t : j0 ∈ t := by
          rcases List.mem_cons.mp hj0 with h | h
          · exact absurd h hjj
          · exact h
        exact ssc_inner_go_hit cl lmax ell hell q t _
          (fun x hx => hv x (List.mem_cons_of_mem j hx)) j0 hj0t hq

/-- `q` is a (real or imaginary) slot of some mode of degree `d`. -/
def isSlotAt (lmax q d : ℕ) : Prop :=
  ∃ em, em ≤ d ∧ (q = realPos em d lmax ∨ (1 ≤ em ∧ q = imagPos em d lmax))

lemma isSlotAt_unique (lmax q d d' : ℕ) (hd : d ≤ lmax) (hd' : d' ≤ lmax)
    (h : isSlotAt lmax q d) (h' : isSlotAt lmax q d') : d = d' := by
  obtain ⟨em, hem, hq⟩ := h
  obtain ⟨em', hem', hq'⟩ := h'
  have h1 : (emEllModes lmax)[q]? = some (em, d) := by
    rcases hq with h | h
    · rw [h]; exact emEllModes_at_realPos em d lmax hem hd
    · rw [h.2]; exact emEllModes_at_imagPos em d lmax h.1 hem hd
  have h2 : (emEllModes lmax)[q]? = some (em', d') := by
    rcases hq' with h | h
    · rw [h]; exact emEllModes_at_realPos em' d' lmax hem' hd'
    · rw [h.2]; exact emEllModes_at_imagPos em' d' lmax h.1 hem' hd'
  exact congrArg Prod.snd (Option.some.inj (h1.symm.trans h2))

lemma ssc_outer_step_hit (cl : List ℚ) (lmax k : ℕ) (hk : k+1 ≤ lmax)
    (sc : ℕ → ℚ) (q : ℕ) (hq : isSlotAt lmax q (k+1)) :
    ssc_outer_step cl lmax sc k q = (1:ℚ)/2 * cl.getD k 0 := by
  obtain ⟨em, hem, hslot⟩ := hq
  have hv0 := get_idx_ml_valid 0 (k+1) lmax (by omega) hk
  rw [Nat.cast_zero, if_pos rfl] at hv0
  rw [ssc_outer_step, hv0]
  show ((List.range (k+1)).foldl (ssc_inner_step cl lmax (k+1))
      (Function.update sc (realPos 0 (k+1) lmax) ((1:ℚ)/2 * cl.getD ((k+1)-1) 0))) q
    = (1:ℚ)/2 * cl.getD k 0
  have hkk : ((k+1)-1 : ℕ) = k := by omega
  by_cases hem0 : em = 0
  · subst hem0
    have hqr : q = realPos 0 (k+1) lmax := by
      rcases hslot with h | h
      · exact h
      · omega
    subst hqr
    have hgoal := ssc_inner_go_keep cl lmax (k+1) hk (realPos 0 (k+1) lmax) (List.range (k+1))
      (Function.update sc (realPos 0 (k+1) lmax) ((1:ℚ)/2 * cl.getD ((k+1)-1) 0))
      (fun j hj => by have := List.mem_range.mp hj; omega)
      (by rw [Function.update_same])
    rw [hgoal, hkk]
  · have hem1 : 1 ≤ em := by omega
    have hgoal := ssc_inner_go_hit cl lmax (k+1) hk q (List.range (k+1))
      (Function.update sc (realPos 0 (k+1) lmax) ((1:ℚ)/2 * cl.getD ((k+1)-1) 0))
      (fun j hj => by have := List.mem_range.mp hj; omega) (em - 1)
      (List.mem_range.mpr (by omega))
      (by have he : em - 1 + 1 = em := by omega
          rw [he]
          exact hslot.imp id (fun h => h.2))
    rw [hgoal, hkk]

lemma ssc_outer_step_ne (cl : List ℚ) (lmax k : ℕ) (hk : k+1 ≤ lmax)
    (sc : ℕ → ℚ) (q : ℕ) (hq : ¬ isSlotAt lmax q (k+1)) :
    ssc_outer_step cl lmax sc k q = sc q := by
  have hv0 := get_idx_ml_valid 0 (k+1) lmax (by omega) hk
  rw [Nat.cast_zero, if_pos rfl] at hv0
  rw [ssc_outer_step, hv0]
  show ((List.range (k+1)).foldl (ssc_inner_step cl lmax (k+1))
      (Function.update sc (realPos 0 (k+1) lmax) ((1:ℚ)/2 * cl.getD ((k+1)-1) 0))) q
    = sc q
  rw [ssc_inner_go_ne cl lmax (k+1) hk q (List.range (k+1)) _
    (fun j hj => by have := List.mem_range.mp hj; omega)
    (fun j hj => by
      constructor
      · intro hcon
        exact hq ⟨j+1, by have := List.mem_range.mp hj; omega, Or.inl hcon⟩
      · intro hcon
        exact hq ⟨j+1, by have := List.mem_range.mp hj; omega, Or.inr ⟨by omega, hcon⟩⟩)]
  rw [Function.update_noteq (fun hcon => hq ⟨0, by omega, Or.inl hcon⟩)]

lemma ssc_outer_go_ne (cl : List ℚ) (lmax q : ℕ) :
    ∀ (l : List ℕ) (sc : ℕ → ℚ), (∀ k ∈ l, k+1 ≤ lmax) →
      (∀ k ∈ l, ¬ isSlotAt lmax q (k+1)) →
      (l.foldl (ssc_outer_step cl lmax) sc) q = sc q
  | [], _, _, _ => rfl
  | k :: t, sc, hv, hq => by
      rw [List.foldl_cons, ssc_outer_go_ne cl lmax q t _
        (fun x hx => hv x (List.mem_cons_of_mem k hx))
        (fun x hx => hq x (List.mem_cons_of_mem k hx))]
      exact ssc_outer_step_ne cl lmax k (hv k (List.mem_cons_self k t)) sc q
        (hq k (List.mem_cons_self k t))

lemma ssc_outer_go_keep (cl : List ℚ) (lmax q d : ℕ) (hd : d ≤ lmax)
    (hslot : isSlotAt lmax q d) :
    ∀ (l : List ℕ) (sc : ℕ → ℚ), (∀ k ∈ l, k+1 ≤ lmax) →
      sc q = (1:ℚ)/2 * cl.getD (d-1) 0 →
      (l.foldl (ssc_outer_step cl lmax) sc) q = (1:ℚ)/2 * cl.getD (d-1) 0
  | [], _, _, hsc => hsc
  | k :: t, sc, hv, hsc => by
      rw [List.foldl_cons]
      apply ssc_outer_go_keep cl lmax q d hd hslot t _
        (fun x hx => hv x (List.mem_cons_of_mem k hx))
      by_cases hk : isSlotAt lmax q (k+1)
      · have hkd : k+1 = d :=
          isSlotAt_unique lmax q (k+1) d (hv k (List.mem_cons_self k t)) hd hk hslot
        rw [ssc_outer_step_hit cl lmax k (hv k (List.mem_cons_self k t)) sc q hk]
        have : k = d - 1 := by omega
        rw [this]
      · rw [ssc_outer_step_ne cl lmax k (hv k (List.mem_cons_self k t)) sc q hk]
        exact hsc

lemma ssc_outer_go_hit (cl : List ℚ) (lmax q d : ℕ) (hd1 : 1 ≤ d) (hd : d ≤ lmax)
    (hslot : isSlotAt lmax q d) :
    ∀ (l : List ℕ) (sc : ℕ → ℚ), (∀ k ∈ l, k+1 ≤ lmax) → (d-1) ∈ l →
      (l.foldl (ssc_outer_step cl lmax) sc) q = (1:ℚ)/2 * cl.getD (d-1) 0
  | [], _, _, hmem => absurd hmem (List.not_mem_nil _)
  | k :: t, sc, hv, hmem => by
      rw [List.foldl_cons]
      by_cases hk : k = d-1
      · subst hk
        apply ssc_outer_go_keep cl lmax q d hd hslot t _
          (fun x hx => hv x (List.mem_cons_of_mem _ hx))
        have hd11 : d - 1 + 1 = d := by omega
        rw [ssc_outer_step_hit cl lmax (d-1) (hv (d-1) (List.mem_cons_self _ t)) sc q
          (by rw [hd11]; exact hslot)]
      · have hmt : (d-1) ∈ t := by
          rcases List.mem_cons.mp hmem with h | h
          · exact absurd h.symm hk
          · exact h
        exact ssc_outer_go_hit cl lmax q d hd1 hd hslot t _
          (fun x hx => hv x (List.mem_cons_of_mem k hx)) hmt

lemma realPos_zero_zero (lmax : ℕ) : realPos 0 0 lmax = 0 := by
  simp [realPos, offsetR]

lemma emEllModes_at_zero (lmax : ℕ) : (emEllModes lmax)[0]? = some (0, 0) := by
  have h := emEllModes_at_realPos 0 0 lmax (le_refl 0) (Nat.zero_le lmax)
  rw [realPos_zero_zero] at h
  exact h

lemma realModes_length_pos (lmax : ℕ) : 0 < (realModes lmax).length := by
  have h := getElem?_realModes_pos 0 0 lmax (le_refl 0) (Nat.zero_le lmax)
  rw [realPos_zero_zero] at h
  exact (List.getElem?_eq_some_iff.mp h).1

lemma not_isSlotAt_zero (lmax d : ℕ) (hd : 1 ≤ d) (hdl : d ≤ lmax) :
    ¬ isSlotAt lmax 0 d := by
  rintro ⟨em, hem, hs | hs⟩
  · have h1 := emEllModes_at_realPos em d lmax hem hdl
    rw [← hs] at h1
    have h2 := emEllModes_at_zero lmax
    have := congrArg Prod.snd (Option.some.inj (h1.symm.trans h2))
    omega
  · have hb := (imagPos_bounds em d lmax hs.1 hem hdl).1
    have := realModes_length_pos lmax
    omega

/-- The degree-0 slot of the covariance is never written: the updater
returns the supplied prior value there, for every `lmax` and every
`cl_samples`. -/
lemma set_signal_cov_by_cl_at_zero (prior_cov : ℕ → ℚ) (cl : List ℚ) (lmax : ℕ) :
    set_signal_cov_by_cl prior_cov cl lmax 0 = prior_cov 0 := by
  rw [set_signal_cov_by_cl]
  apply ssc_outer_go_ne cl lmax 0 (List.range lmax) prior_cov
    (fun k hk => by have := List.mem_range.mp hk; omega)
  intro k hk
  exact not_isSlotAt_zero lmax (k+1) (by omega) (by have := List.mem_range.mp hk; omega)

/-- Every real or imaginary slot of a degree `1 ≤ ell ≤ lmax` receives
`0.5 * cl_samples[ell-1]`. -/
lemma set_signal_cov_by_cl_at_slot (prior_cov : ℕ → ℚ) (cl : List ℚ) (lmax q em ell : ℕ)
    (h1 : 1 ≤ ell) (hem : em ≤ ell) (hell : ell ≤ lmax)
    (hq : q = realPos em ell lmax ∨ (1 ≤ em ∧ q = imagPos em ell lmax)) :
    set_signal_cov_by_cl prior_cov cl lmax q = (1:ℚ)/2 * cl.getD (ell-1) 0 := by
  rw [set_signal_cov_by_cl]
  exact ssc_outer_go_hit cl lmax q ell h1 hell ⟨em, hem, hq⟩ (List.range lmax) prior_cov
    (fun k hk => by have := List.mem_range.mp hk; omega)
    (List.mem_range.mpr (by omega))

/-! ### GCR linear system
(`construct_rhs_no_rot`, `get_lhs_operators`, `apply_lhs_no_rot`) -/

/-- Floor square root by bounded search (kernel-reducible). -/
def natSqrtFloor (x : ℕ) : ℕ :=
  ((List.range (x+1)).filter (fun r => decide (r*r ≤ x))).foldl (fun _ r => r) 0

/-- Executable stand-in for `np.sqrt` on the rationals, exact on rationals
whose numerator and denominator are perfect squares (all concrete instances
below).  The algebraic theorems are stated for an arbitrary interpretation
`s : ℚ → ℚ` of the square root, which the formulas apply elementwise. -/
def ratSqrt (x : ℚ) : ℚ := (natSqrtFloor x.num.toNat : ℚ) / (natSqrtFloor x.den : ℚ)

/-- Transposed matrix-vector product `A.T @ v`: matrices and vectors are
functions, the contraction runs over the visibility index `k < m`. -/
def matTvec (m : ℕ) (A : ℕ → ℕ → ℚ) (v : ℕ → ℚ) : ℕ → ℚ :=
  fun j => ∑ k ∈ Finset.range m, A k j * v k

/-- Embedding of `construct_rhs_no_rot(data, inv_noise_cov, inv_signal_cov,
omega_0, omega_1, a_0, vis_response)`: complex arrays are carried as
real/imaginary part pairs, `s` interprets `np.sqrt`, and `m` is the number
of visibilities. -/
def construct_rhs_no_rot (s : ℚ → ℚ) (m : ℕ)
    (dataRe dataIm invN invS omega0 : ℕ → ℚ) (omega1re omega1im a0 : ℕ → ℚ)
    (Rre Rim : ℕ → ℕ → ℚ) : ℕ → ℚ :=
  fun j =>
    matTvec m Rre (fun k => invN k * dataRe k + s (invN k) * omega1re k) j
    + matTvec m Rim (fun k => invN k * dataIm k + s (invN k) * omega1im k) j
    + (invS j * a0 j + s (invS j) * omega0 j)

/-- Embedding of the first output of `get_lhs_operators`: the noise-weighted
Gram block `real_op = Re(R).T @ (N^{-1}[:,None] * Re(R))`. -/
def get_lhs_real_op (m : ℕ) (Rre : ℕ → ℕ → ℚ) (invN : ℕ → ℚ) : ℕ → ℕ → ℚ :=
  fun i j => ∑ k ∈ Finset.range m, Rre k i * (invN k * Rre k j)

/-- Embedding of the second output of `get_lhs_operators`: the block
`imag_op = Im(R).T @ (N^{-1}[:,None] * Im(R))`. -/
def get_lhs_imag_op (m : ℕ) (Rim : ℕ → ℕ → ℚ) (invN : ℕ → ℚ) : ℕ → ℕ → ℚ :=
  fun i j => ∑ k ∈ Finset.range m, Rim k i * (invN k * Rim k j)

/-- Embedding of `apply_lhs_no_rot(a_cr, real_op, imag_op, inv_signal_cov)`:
`real_op @ a_cr + imag_op @ a_cr + inv_signal_cov * a_cr` on `n`
coefficients. -/
def apply_lhs_no_rot (n : ℕ) (a_cr : ℕ → ℚ) (real_op imag_op : ℕ → ℕ → ℚ)
    (inv_signal_cov : ℕ → ℚ) : ℕ → ℚ :=
  fun i => (∑ j ∈ Finset.range n, real_op i j * a_cr j)
    + (∑ j ∈ Finset.range n, imag_op i j * a_cr j)
    + inv_signal_cov i * a_cr i

/-- Dot product over the first `n` entries. -/
def dotN (n : ℕ) (u v : ℕ → ℚ) : ℚ := ∑ i ∈ Finset.range n, u i * v i

lemma dot_gram (m n : ℕ) (R : ℕ → ℕ → ℚ) (invN : ℕ → ℚ) (u v : ℕ → ℚ) :
    (∑ i ∈ Finset.range n, u i *
        (∑ j ∈ Finset.range n, (∑ k ∈ Finset.range m, R k i * (invN k * R k j)) * v j))
      = ∑ k ∈ Finset.range m, invN k *
          ((∑ j ∈ Finset.range n, R k j * u j) * (∑ j ∈ Finset.range n, R k j * v j)) := by
  simp only [Finset.mul_sum, Finset.sum_mul]
  calc (∑ x ∈ Finset.range n, ∑ y ∈ Finset.range n, ∑ i ∈ Finset.range m,
        u x * (R i x * (invN i * R i y) * v y))
      = ∑ x ∈ Finset.range n, ∑ i ∈ Finset.range m, ∑ y ∈ Finset.range n,
        u x * (R i x * (invN i * R i y) * v y) :=
        Finset.sum_congr rfl (fun x _ => Finset.sum_comm)
    _ = ∑ i ∈ Finset.range m, ∑ x ∈ Finset.range n, ∑ y ∈ Finset.range n,
        u x * (R i x * (invN i * R i y) * v y) := Finset.sum_comm
    _ = ∑ k ∈ Finset.range m, ∑ y ∈ Finset.range n, ∑ x ∈ Finset.range n,
        u x * (R k x * (invN k * R k y) * v y) :=
        Finset.sum_congr rfl (fun k _ => Finset.sum_comm)
    _ = ∑ x ∈ Finset.range m, ∑ x_1 ∈ Finset.range n, ∑ i ∈ Finset.range n,
        invN x * (R x i * u i * (R x x_1 * v x_1)) := by
        apply Finset.sum_congr rfl
        intro k _
        apply Finset.sum_congr rfl
        intro a _
        apply Finset.sum_congr rfl
        intro b _
        ring

lemma dot_lhs_eq (m n : ℕ) (Rre Rim : ℕ → ℕ → ℚ) (invN invS : ℕ → ℚ) (u v : ℕ → ℚ) :
    dotN n u (apply_lhs_no_rot n v (get_lhs_real_op m Rre invN) (get_lhs_imag_op m Rim invN) invS)
      = (∑ k ∈ Finset.range m, invN k *
          ((∑ j ∈ Finset.range n, Rre k j * u j) * (∑ j ∈ Finset.range n, Rre k j * v j)))
      + (∑ k ∈ Finset.range m, invN k *
          ((∑ j ∈ Finset.range n, Rim k j * u j) * (∑ j ∈ Finset.range n, Rim k j * v j)))
      + (∑ i ∈ Finset.range n, invS i * (u i * v i)) := by
  have hre := dot_gram m n Rre invN u v
  have him := dot_gram m n Rim invN u v
  simp only [dotN, apply_lhs_no_rot, get_lhs_real_op, get_lhs_imag_op]
  calc (∑ i ∈ Finset.range n, u i *
        ((∑ j ∈ Finset.range n, (∑ k ∈ Finset.range m, Rre k i * (invN k * Rre k j)) * v j)
          + (∑ j ∈ Finset.range n, (∑ k ∈ Finset.range m, Rim k i * (invN k * Rim k j)) * v j)
          + invS i * v i))
      = ∑ i ∈ Finset.range n,
          (u i * (∑ j ∈ Finset.range n, (∑ k ∈ Finset.range m, Rre k i * (invN k * Rre k j)) * v j)
          + (u i * (∑ j ∈ Finset.range n, (∑ k ∈ Finset.range m, Rim k i * (invN k * Rim k j)) * v j)
          + invS i * (u i * v i))) :=
        Finset.sum_congr rfl (fun i _ => by ring)
    _ = (∑ i ∈ Finset.range n,
          u i * (∑ j ∈ Finset.range n, (∑ k ∈ Finset.range m, Rre k i * (invN k * Rre k j)) * v j))
        + ((∑ i ∈ Finset.range n,
          u i * (∑ j ∈ Finset.range n, (∑ k ∈ Finset.range m, Rim k i * (invN k * Rim k j)) * v j))
        + (∑ i ∈ Finset.range n, invS i * (u i * v i))) := by
        rw [Finset.sum_add_distrib, Finset.sum_add_distrib]
    _ = (∑ k ∈ Finset.range m, invN k *
          ((∑ j ∈ Finset.range n, Rre k j * u j) * (∑ j ∈ Finset.range n, Rre k j * v j)))
      + (∑ k ∈ Finset.range m, invN k *
          ((∑ j ∈ Finset.range n, Rim k j * u j) * (∑ j ∈ Finset.range n, Rim k j * v j)))
      + (∑ i ∈ Finset.range n, invS i * (u i * v i)) := by
        rw [hre, him]
        ring

/-! ### Gibbs chain model (the `__main__` sampling loop) -/

/-- Parameters and external collaborators of one chain of the `__main__`
sampling loop: the visibility response operator (real/imaginary parts), the
noise and prior models, the prior mean and data vector, and the external
sources of randomness and the linear solver, as abstract functions.
`omega0 seed`, `omega1re seed`, `omega1im seed` are the fluctuation
vectors that `np.random.randn` produces after `np.random.seed(seed)`
(the `omega_1` components already carry the `1/sqrt(2)` normalization);
`rvs seed shape loc scale` is the seeded `invgamma.rvs` draw; and
`solver A b x0` is the conjugate-gradient solve of `A x = b` warm-started
at `x0`. -/
structure GibbsParams where
  m : ℕ
  n : ℕ
  lmax : ℕ
  jobid : ℕ
  Rre : ℕ → ℕ → ℚ
  Rim : ℕ → ℕ → ℚ
  invNoise : ℕ → ℚ
  priorCov : ℕ → ℚ
  a0 : ℕ → ℚ
  dataRe : ℕ → ℚ
  dataIm : ℕ → ℚ
  sqrtFn : ℚ → ℚ
  omega0 : ℕ → ℕ → ℚ
  omega1re : ℕ → ℕ → ℚ
  omega1im : ℕ → ℕ → ℚ
  rvs : ℕ → ℚ → ℚ → ℚ → ℚ
  solver : ((ℕ → ℚ) → (ℕ → ℚ)) → (ℕ → ℚ) → (ℕ → ℚ) → (ℕ → ℚ)

/-- Seed for the alm draw of iteration `sample_no`:
`alm_random_seed = 100*jobid + sample_no` (line 1379 of the source). -/
def alm_random_seed (jobid sample_no : ℕ) : ℕ := 100*jobid + sample_no

/-- Seed for the C_ell draw of iteration `sample_no`:
`cl_random_seed = 100*jobid + sample_no` (line 1380 of the source). -/
def cl_random_seed (jobid sample_no : ℕ) : ℕ := 100*jobid + sample_no

/-- The precomputed real Gram block of the chain (`get_lhs_operators`). -/
def chain_real_op (P : GibbsParams) : ℕ → ℕ → ℚ :=
  get_lhs_real_op P.m P.Rre P.invNoise

/-- The precomputed imaginary Gram block of the chain. -/
def chain_imag_op (P : GibbsParams) : ℕ → ℕ → ℚ :=
  get_lhs_imag_op P.m P.Rim P.invNoise

/-- Embedding of `get_alm_samples(...)`: draw `omega_0, omega_1` from the
stream seeded with `random_seed`, build the right-hand side, and run the
solver on the matrix-free operator warm-started at `initial_guess`. -/
def get_alm_samples (P : GibbsParams) (inv_signal_cov initial_guess : ℕ → ℚ)
    (random_seed : ℕ) : ℕ → ℚ :=
  P.solver
    (fun x => apply_lhs_no_rot P.n x (chain_real_op P) (chain_imag_op P) inv_signal_cov)
    (construct_rhs_no_rot P.sqrtFn P.m P.dataRe P.dataIm P.invNoise
      inv_signal_cov (P.omega0 random_seed) (P.omega1re random_seed)
      (P.omega1im random_seed) P.a0 P.Rre P.Rim)
    initial_guess

/-- The Wiener-filter right-hand side computed at chain start:
`construct_rhs_no_rot` with `omega_0_wf = 0`, `omega_1_wf = 0` and
`inv_signal_cov = inv_prior_cov`. -/
def wf_rhs (P : GibbsParams) : ℕ → ℚ :=
  construct_rhs_no_rot P.sqrtFn P.m P.dataRe P.dataIm P.invNoise
    (fun i => 1 / P.priorCov i) (fun _ => 0) (fun _ => 0) (fun _ => 0)
    P.a0 P.Rre P.Rim

/-- Chain state between iterations: the inverse signal covariance used by
the next solve, and the warm start. -/
structure ChainState where
  invSignalCov : ℕ → ℚ
  initialGuess : ℕ → ℚ

/-- Chain initialization (`Init`): `inv_signal_cov = inv_prior_cov`, then
the deterministic Wiener-filter solve seeds the warm start (scipy's `cg`
with no `x0` starts from the zero vector).  Returns the Wiener-filter
solution together with the initial chain state. -/
def gibbsInit (P : GibbsParams) : (ℕ → ℚ) × ChainState :=
  let inv_prior_cov : ℕ → ℚ := fun i => 1 / P.priorCov i
  let wf_soln := P.solver
    (fun x => apply_lhs_no_rot P.n x (chain_real_op P) (chain_imag_op P) inv_prior_cov)
    (wf_rhs P) (fun _ => 0)
  (wf_soln, ⟨inv_prior_cov, wf_soln⟩)

/-- One iteration of the sampling loop (lines 1367-1408): set the two seeds
from `(jobid, sample_no)`, draw the coefficient sample, draw the C_ell
sample, update the signal covariance, and invert it for the next
iteration.  Returns the new state and the emitted records. -/
def gibbsStep (P : GibbsParams) (st : ChainState) (sample_no : ℕ) :
    ChainState × (ℕ → ℚ) × List ℚ :=
  let x_soln := get_alm_samples P st.invSignalCov st.initialGuess
    (alm_random_seed P.jobid sample_no)
  let cl_samples := get_cl_samples x_soln P.lmax
    (P.rvs (cl_random_seed P.jobid sample_no))
  let signal_cov := set_signal_cov_by_cl P.priorCov cl_samples P.lmax
  (⟨fun i => 1 / signal_cov i, x_soln⟩, x_soln, cl_samples)

/-- The chain state entering iteration `t`. -/
def chainStateAt (P : GibbsParams) : ℕ → ChainState
  | 0 => (gibbsInit P).2
  | t+1 => (gibbsStep P (chainStateAt P t) t).1

/-- The coefficient draw emitted at iteration `t`. -/
def emitted_alm (P : GibbsParams) (t : ℕ) : ℕ → ℚ :=
  (gibbsStep P (chainStateAt P t) t).2.1

/-- The power-spectrum draw emitted at iteration `t`. -/
def emitted_cl (P : GibbsParams) (t : ℕ) : List ℚ :=
  (gibbsStep P (chainStateAt P t) t).2.2

/-! ### A concrete chain instance (diagonal response, unit noise and prior)
used to settle the degree-0 coefficient question. -/

/-- A solver valid for the operator `2 * id`: returns `b / 2` (the exact
conjugate-gradient limit for that system). -/
def ceSolverDiag : ((ℕ → ℚ) → (ℕ → ℚ)) → (ℕ → ℚ) → (ℕ → ℚ) → (ℕ → ℚ) :=
  fun _A b _x0 => fun i => b i / 2

/-- A concrete chain: `lmax = 1` (4 coefficients), the response operator is
the identity on the 4 modes (`Rre = I`, `Rim = 0`), unit noise precision,
unit prior covariance, zero data and zero prior mean, and a run whose
fluctuation draw `omega_0` has first component `2` (every seed); the
inverse-gamma variates are `1`. -/
def ceParams : GibbsParams :=
  { m := 4, n := 4, lmax := 1, jobid := 0
  , Rre := fun k j => if k = j ∧ k < 4 then 1 else 0
  , Rim := fun _ _ => 0
  , invNoise := fun _ => 1
  , priorCov := fun _ => 1
  , a0 := fun _ => 0
  , dataRe := fun _ => 0
  , dataIm := fun _ => 0
  , sqrtFn := ratSqrt
  , omega0 := fun _ i => if i = 0 then 2 else 0
  , omega1re := fun _ _ => 0
  , omega1im := fun _ _ => 0
  , rvs := fun _ _ _ _ => 1
  , solver := ceSolverDiag }

/-- On the concrete instance the matrix-free operator applied with unit
signal precision is exactly `2 * id` on the 4 coefficients, so
`ceSolverDiag` returns the exact solution of the linear system there. -/
lemma ceParams_lhs_eq (invS : ℕ → ℚ) (hS : ∀ i, invS i = 1) (v : ℕ → ℚ)
    (i : ℕ) (hi : i < 4) :
    apply_lhs_no_rot ceParams.n v (chain_real_op ceParams) (chain_imag_op ceParams)
      invS i = 2 * v i := by
  interval_cases i <;>
    simp [apply_lhs_no_rot, chain_real_op, chain_imag_op, get_lhs_real_op,
      get_lhs_imag_op, ceParams, Finset.sum_range_succ, hS] <;> ring

lemma ceSolver_solves (invS : ℕ → ℚ) (hS : ∀ i, invS i = 1)
    (A : (ℕ → ℚ) → (ℕ → ℚ)) (b x0 : ℕ → ℚ) (i : ℕ) (hi : i < 4) :
    apply_lhs_no_rot ceParams.n (ceSolverDiag A b x0) (chain_real_op ceParams)
      (chain_imag_op ceParams) invS i = b i := by
  rw [ceParams_lhs_eq invS hS _ i hi]
  show 2 * (b i / 2) = b i
  ring

lemma ratSqrt_one : ratSqrt 1 = 1 := by
  have h1 : (1:ℚ).num.toNat = 1 := rfl
  have h2 : (1:ℚ).den = 1 := rfl
  have h3 : natSqrtFloor 1 = 1 := rfl
  rw [ratSqrt, h1, h2, h3]
  norm_num

lemma ce_emitted0 : emitted_alm ceParams 0 0 = 1 := by
  show (construct_rhs_no_rot ceParams.sqrtFn ceParams.m ceParams.dataRe ceParams.dataIm
      ceParams.invNoise (chainStateAt ceParams 0).invSignalCov
      (ceParams.omega0 (alm_random_seed ceParams.jobid 0))
      (ceParams.omega1re (alm_random_seed ceParams.jobid 0))
      (ceParams.omega1im (alm_random_seed ceParams.jobid 0))
      ceParams.a0 ceParams.Rre ceParams.Rim 0) / 2 = 1
  have hinv : (chainStateAt ceParams 0).invSignalCov = fun _ => 1/(1:ℚ) := rfl
  rw [hinv, construct_rhs_no_rot]
  simp only [matTvec, ceParams]
  norm_num [ratSqrt_one]

lemma ce_wf0 : (gibbsInit ceParams).1 0 = 0 := by
  show (wf_rhs ceParams 0) / 2 = 0
  rw [wf_rhs, construct_rhs_no_rot]
  simp only [matTvec, ceParams]
  norm_num

/-! ### Claim theorems -/

/-- C1: for every realified coefficient vector and `lmax ≥ 1`, the
power-spectrum sampler returns exactly `lmax` entries ordered by `ell`
(degree 0 excluded); entry `k` (degree `ell = k+1`) is the seeded
inverse-gamma draw with shape `(2*ell-1)/2`, `loc = 0`, `scale = 1`,
multiplied by `sigma_ell * (2*ell+1)/2` with `sigma_ell` the spec's
sufficient statistic. -/
theorem spec_C1 (alms : ℕ → ℚ) (lmax : ℕ) (rvs : ℚ → ℚ → ℚ → ℚ) (hl : 1 ≤ lmax) :
    (get_cl_samples alms lmax rvs).length = lmax
    ∧ ∀ k, k < lmax →
      (get_cl_samples alms lmax rvs).getD k 0
        = rvs ((2*(((k:ℕ)+1 : ℕ) : ℚ) - 1)/2) 0 1
          * (sigma_ell_spec alms lmax (k+1) * (2*(((k:ℕ)+1 : ℕ) : ℚ)+1)/2) := by
  constructor
  · rw [get_cl_samples]
    simp
  · intro k hk
    rw [get_cl_samples, List.getD_eq_getElem?_getD, List.getElem?_map,
      List.getElem?_range hk]
    simp only [Option.map_some', Option.getD_some]
    rw [get_sigma_ell_getD alms lmax k hk]

/-- Witness for C1 at `alms i = i`, `lmax = 1`, a concrete draw function. -/
theorem spec_C1_witness :
    (get_cl_samples (fun i => (i:ℚ)) 1 (fun a b c : ℚ => a + b + c)).getD 0 0
      = (fun a b c : ℚ => a + b + c) ((2*(((0:ℕ)+1 : ℕ) : ℚ) - 1)/2) 0 1
        * (sigma_ell_spec (fun i => (i:ℚ)) 1 (0+1) * (2*(((0:ℕ)+1 : ℕ) : ℚ)+1)/2) :=
  (spec_C1 (fun i => (i:ℚ)) 1 (fun a b c : ℚ => a + b + c) (by norm_num)).2 0 (by norm_num)

/-- C2 counterexample: in the concrete chain `ceParams` the degree-0 slot
of the coefficient vector emitted at the first iteration is `1`, while its
`Init`-time (Wiener-filter) value is `0`, so the degree-0 coefficient is
not held at its initialization value across iterations. -/
theorem spec_C2_cex :
    emitted_alm ceParams 0 0 = 1 ∧ (gibbsInit ceParams).1 0 = 0
    ∧ emitted_alm ceParams 0 0 ≠ (gibbsInit ceParams).1 0 := by
  refine ⟨ce_emitted0, ce_wf0, ?_⟩
  rw [ce_emitted0, ce_wf0]
  norm_num

/-- C2 (amended): across all iterations of every chain, the degree-0 entry
of the inverse signal covariance used by the solve (hence the degree-0
prior variance) stays exactly at its `Init`-time value; the degree-0
coefficient entry is re-solved each iteration and is not preserved (see
the counterexample). -/
theorem spec_C2_amended (P : GibbsParams) (t : ℕ) :
    (chainStateAt P t).invSignalCov 0 = (gibbsInit P).2.invSignalCov 0 := by
  cases t with
  | zero => rfl
  | succ t =>
      show (gibbsStep P (chainStateAt P t) t).1.invSignalCov 0
        = (gibbsInit P).2.invSignalCov 0
      show (1 : ℚ) / set_signal_cov_by_cl P.priorCov
        (get_cl_samples
          (get_alm_samples P (chainStateAt P t).invSignalCov
            (chainStateAt P t).initialGuess (alm_random_seed P.jobid t))
          P.lmax (P.rvs (cl_random_seed P.jobid t)))
        P.lmax 0 = (gibbsInit P).2.invSignalCov 0
      rw [set_signal_cov_by_cl_at_zero]
      rfl

/-- C3: the right-hand side built by `construct_rhs_no_rot` is exactly
`Re(R)^T (N^{-1} d_re + sqrt(N^{-1}) omega1_re)
 + Im(R)^T (N^{-1} d_im + sqrt(N^{-1}) omega1_im)
 + S^{-1} a_0 + sqrt(S^{-1}) omega_0`, and with `omega_0 = omega_1 = 0` it
reduces to the deterministic Wiener-filter right-hand side, which is what
chain initialization (`gibbsInit` via `wf_rhs`) uses. -/
theorem spec_C3 (s : ℚ → ℚ) (m : ℕ)
    (dataRe dataIm invN invS omega0 omega1re omega1im a0 : ℕ → ℚ)
    (Rre Rim : ℕ → ℕ → ℚ) :
    (construct_rhs_no_rot s m dataRe dataIm invN invS omega0 omega1re omega1im a0 Rre Rim
      = fun j =>
        (∑ k ∈ Finset.range m, Rre k j * (invN k * dataRe k + s (invN k) * omega1re k))
        + (∑ k ∈ Finset.range m, Rim k j * (invN k * dataIm k + s (invN k) * omega1im k))
        + (invS j * a0 j + s (invS j) * omega0 j))
    ∧ (construct_rhs_no_rot s m dataRe dataIm invN invS
        (fun _ => 0) (fun _ => 0) (fun _ => 0) a0 Rre Rim
      = fun j =>
        (∑ k ∈ Finset.range m, Rre k j * (invN k * dataRe k))
        + (∑ k ∈ Finset.range m, Rim k j * (invN k * dataIm k))
        + invS j * a0 j)
    ∧ (∀ P : GibbsParams, wf_rhs P
      = fun j =>
        (∑ k ∈ Finset.range P.m, P.Rre k j * (P.invNoise k * P.dataRe k))
        + (∑ k ∈ Finset.range P.m, P.Rim k j * (P.invNoise k * P.dataIm k))
        + (1 / P.priorCov j) * P.a0 j) := by
  refine ⟨rfl, ?_, ?_⟩
  · funext j
    rw [construct_rhs_no_rot]
    simp only [matTvec, mul_zero, add_zero]
  · intro P
    funext j
    rw [wf_rhs, construct_rhs_no_rot]
    simp only [matTvec, mul_zero, add_zero]

/-- C4 counterexample: the C_ell draw is seeded with exactly the same seed
as the alm draw of the same iteration (here jobid 3, iteration 7), so its
random stream is the alm stream restarted, not a distinct stream. -/
theorem spec_C4_cex : cl_random_seed 3 7 = alm_random_seed 3 7 := rfl

/-- C4 (amended): the spectrum draw of each iteration is seeded
deterministically from `(job_id, iteration_index)` via
`100*job_id + iteration_index`, but this is the SAME seed (hence the same
restarted stream) as the alm fluctuation draw of that iteration, not a
distinct one: the step's C_ell samples are literally drawn with the alm
seed. -/
theorem spec_C4_amended :
    (∀ jobid sample_no : ℕ,
        cl_random_seed jobid sample_no = 100*jobid + sample_no
        ∧ cl_random_seed jobid sample_no = alm_random_seed jobid sample_no)
    ∧ (∀ (P : GibbsParams) (st : ChainState) (t : ℕ),
        (gibbsStep P st t).2.2
          = get_cl_samples ((gibbsStep P st t).2.1) P.lmax
              (P.rvs (alm_random_seed P.jobid t))) :=
  ⟨fun _ _ => ⟨rfl, rfl⟩, fun _ _ _ => rfl⟩

/-- C5: the matrix-free left-hand-side operator built from the precomputed
noise-weighted Gram blocks plus the diagonal signal precision is symmetric,
and positive definite whenever the signal precision is strictly positive
(noise precision non-negative). -/
theorem spec_C5 (m n : ℕ) (Rre Rim : ℕ → ℕ → ℚ) (invN invS : ℕ → ℚ)
    (hN : ∀ k, 0 ≤ invN k) :
    (∀ u v : ℕ → ℚ,
        dotN n u (apply_lhs_no_rot n v (get_lhs_real_op m Rre invN)
          (get_lhs_imag_op m Rim invN) invS)
        = dotN n v (apply_lhs_no_rot n u (get_lhs_real_op m Rre invN)
          (get_lhs_imag_op m Rim invN) invS))
    ∧ (∀ x : ℕ → ℚ, (∀ j, 0 < invS j) → (∃ j, j < n ∧ x j ≠ 0) →
        0 < dotN n x (apply_lhs_no_rot n x (get_lhs_real_op m Rre invN)
          (get_lhs_imag_op m Rim invN) invS)) := by
  constructor
  · intro u v
    rw [dot_lhs_eq, dot_lhs_eq]
    congr 1
    · congr 1
      · exact Finset.sum_congr rfl (fun k _ => by ring)
      · exact Finset.sum_congr rfl (fun k _ => by ring)
    · exact Finset.sum_congr rfl (fun i _ => by ring)
  · rintro x hS ⟨j0, hj0n, hx⟩
    rw [dot_lhs_eq]
    have h1 : 0 ≤ ∑ k ∈ Finset.range m, invN k *
        ((∑ j ∈ Finset.range n, Rre k j * x j) * (∑ j ∈ Finset.range n, Rre k j * x j)) :=
      Finset.sum_nonneg (fun k _ => mul_nonneg (hN k) (mul_self_nonneg _))
    have h2 : 0 ≤ ∑ k ∈ Finset.range m, invN k *
        ((∑ j ∈ Finset.range n, Rim k j * x j) * (∑ j ∈ Finset.range n, Rim k j * x j)) :=
      Finset.sum_nonneg (fun k _ => mul_nonneg (hN k) (mul_self_nonneg _))
    have h3 : 0 < ∑ i ∈ Finset.range n, invS i * (x i * x i) :=
      Finset.sum_pos' (fun i _ => mul_nonneg (le_of_lt (hS i)) (mul_self_nonneg _))
        ⟨j0, Finset.mem_range.mpr hj0n, mul_pos (hS j0) (mul_self_pos.mpr hx)⟩
    linarith

/-- Witness for C5 on a concrete 1-visibility, 1-coefficient system. -/
theorem spec_C5_witness :
    (dotN 1 (fun _ => (1:ℚ)) (apply_lhs_no_rot 1 (fun _ => (2:ℚ))
        (get_lhs_real_op 1 (fun _ _ => 2) (fun _ => 3))
        (get_lhs_imag_op 1 (fun _ _ => 1) (fun _ => 3)) (fun _ => 5))
      = dotN 1 (fun _ => (2:ℚ)) (apply_lhs_no_rot 1 (fun _ => (1:ℚ))
        (get_lhs_real_op 1 (fun _ _ => 2) (fun _ => 3))
        (get_lhs_imag_op 1 (fun _ _ => 1) (fun _ => 3)) (fun _ => 5)))
    ∧ 0 < dotN 1 (fun _ => (1:ℚ)) (apply_lhs_no_rot 1 (fun _ => (1:ℚ))
        (get_lhs_real_op 1 (fun _ _ => 2) (fun _ => 3))
        (get_lhs_imag_op 1 (fun _ _ => 1) (fun _ => 3)) (fun _ => 5)) := by
  have h := spec_C5 1 1 (fun _ _ => 2) (fun _ _ => 1) (fun _ => 3) (fun _ => 5)
    (fun k => by norm_num)
  exact ⟨h.1 (fun _ => 1) (fun _ => 2),
    h.2 (fun _ => 1) (fun j => by norm_num) ⟨0, by norm_num, by norm_num⟩⟩

/-- C6: the coefficient indexing is a bijection between valid modes and
flat positions: the real block of `(lmax+1)(lmax+2)/2` slots is followed
contiguously by the imaginary block of `lmax(lmax+1)/2` slots (no `em = 0`
imaginary slot), `(lmax+1)^2` slots in total; the enumeration is em-major
with `ell` running `em..lmax` in each block; `get_idx_ml` and the
`(ems, ells)` lists round-trip exactly in both directions. -/
theorem spec_C6 (lmax : ℕ) :
    ((realModes lmax).length * 2 = (lmax+1)*(lmax+2)
      ∧ (imagModes lmax).length * 2 = lmax*(lmax+1)
      ∧ (get_em_ell_idx lmax).1.length = (lmax+1)^2
      ∧ emEllModes lmax = realModes lmax ++ imagModes lmax)
    ∧ (emEllModes lmax
        = ((List.range (lmax+1)).flatMap fun em =>
            (List.range' em (lmax+1-em)).map (fun ell => (em, ell)))
          ++ ((List.range lmax).flatMap fun k =>
            (List.range' (k+1) (lmax-k)).map (fun ell => (k+1, ell))))
    ∧ (∀ em ell : ℕ, em ≤ ell → ell ≤ lmax →
        get_idx_ml em ell lmax
          = some (realPos em ell lmax,
              if em = 0 then none else some (imagPos em ell lmax))
        ∧ (emEllModes lmax)[realPos em ell lmax]? = some (em, ell)
        ∧ realPos em ell lmax < (realModes lmax).length
        ∧ (1 ≤ em → (emEllModes lmax)[imagPos em ell lmax]? = some (em, ell)
            ∧ (realModes lmax).length ≤ imagPos em ell lmax
            ∧ imagPos em ell lmax < (lmax+1)^2))
    ∧ (∀ p : ℕ, p < (lmax+1)^2 →
        ∃ em ell : ℕ, (emEllModes lmax)[p]? = some (em, ell) ∧ em ≤ ell ∧ ell ≤ lmax
          ∧ (p < (realModes lmax).length → p = realPos em ell lmax)
          ∧ ((realModes lmax).length ≤ p → 1 ≤ em ∧ p = imagPos em ell lmax)) := by
  have htot := length_emEllModes lmax
  have hsplit2 := length_emEllModes_eq lmax
  have hrl2 := length_realModes_mul_two lmax
  have hil2 := length_imagModes_mul_two lmax
  refine ⟨⟨hrl2, hil2, ?_, rfl⟩, ?_, ?_, ?_⟩
  · rw [get_em_ell_idx]
    rw [List.length_map]
    exact htot
  · rw [emEllModes, realModes, imagModes]
    have hfun2 : (fun k => blockModes lmax (k+1))
        = fun k => (List.range' (k+1) (lmax-k)).map (fun ell => (k+1, ell)) := by
      funext k
      rw [blockModes_eq]
      have hnum : lmax+1-(k+1) = lmax-k := by omega
      rw [hnum]
    have hfun : blockModes lmax
        = fun em => (List.range' em (lmax+1-em)).map (fun ell => (em, ell)) :=
      funext (fun em => blockModes_eq lmax em)
    rw [hfun2, hfun]
  · intro em ell h1 h2
    refine ⟨get_idx_ml_valid em ell lmax h1 h2,
      emEllModes_at_realPos em ell lmax h1 h2,
      realPos_lt em ell lmax h1 h2, ?_⟩
    intro hem
    obtain ⟨hige, hibnd⟩ := imagPos_bounds em ell lmax hem h1 h2
    exact ⟨emEllModes_at_imagPos em ell lmax hem h1 h2, hige, by omega⟩
  · intro p hp
    by_cases hlt : p < (realModes lmax).length
    · rcases hre : (realModes lmax)[p]? with _ | pr
      · exact absurd (List.getElem?_eq_none_iff.mp hre) (by omega)
      · obtain ⟨em, ell⟩ := pr
        have hu := realModes_pos_unique lmax p em ell hlt hre
        refine ⟨em, ell, ?_, hu.1, hu.2.1, fun _ => hu.2.2, fun hge => by omega⟩
        rw [getElem?_emEllModes_left lmax p hlt]
        exact hre
    · have hge : (realModes lmax).length ≤ p := by omega
      have hibnd : p - (realModes lmax).length < (imagModes lmax).length := by omega
      rcases him : (imagModes lmax)[p - (realModes lmax).length]? with _ | pr
      · exact absurd (List.getElem?_eq_none_iff.mp him) (by omega)
      · obtain ⟨em, ell⟩ := pr
        have hu := imagModes_pos_unique lmax (p - (realModes lmax).length) em ell hibnd him
        refine ⟨em, ell, ?_, hu.2.1, hu.2.2.1, fun hcon => by omega,
          fun _ => ⟨hu.1, by omega⟩⟩
        rw [getElem?_emEllModes_right lmax p hge]
        exact him

/-- Witness for C6 at `lmax = 2`, mode `(em, ell) = (1, 2)`. -/
theorem spec_C6_witness :
    get_idx_ml ((1:ℕ):ℤ) ((2:ℕ):ℤ) 2
      = some (realPos 1 2 2, if (1:ℕ) = 0 then none else some (imagPos 1 2 2)) :=
  ((spec_C6 2).2.2.1 1 2 (by norm_num) (by norm_num)).1

/-- C7: for every prior covariance, C_ell sample of length `lmax ≥ 1`, the
covariance updater gives every real and imaginary slot of every degree
`ell ≥ 1` the variance `0.5 * C_ell`, while the degree-0 slot (flat
position 0) keeps exactly the supplied prior covariance value; the
supplied prior vector itself is never written (functional update of a
copy). -/
theorem spec_C7 (prior_cov : ℕ → ℚ) (cl : List ℚ) (lmax : ℕ)
    (hlen : cl.length = lmax) (hl : 1 ≤ lmax) :
    (∀ em ell : ℕ, 1 ≤ ell → em ≤ ell → ell ≤ lmax →
        set_signal_cov_by_cl prior_cov cl lmax (realPos em ell lmax)
          = 1/2 * cl.getD (ell-1) 0
        ∧ (1 ≤ em →
            set_signal_cov_by_cl prior_cov cl lmax (imagPos em ell lmax)
              = 1/2 * cl.getD (ell-1) 0))
    ∧ realPos 0 0 lmax = 0
    ∧ set_signal_cov_by_cl prior_cov cl lmax 0 = prior_cov 0 := by
  refine ⟨?_, realPos_zero_zero lmax, set_signal_cov_by_cl_at_zero prior_cov cl lmax⟩
  intro em ell h1 h2 h3
  exact ⟨set_signal_cov_by_cl_at_slot prior_cov cl lmax _ em ell h1 h2 h3 (Or.inl rfl),
    fun hem =>
      set_signal_cov_by_cl_at_slot prior_cov cl lmax _ em ell h1 h2 h3 (Or.inr ⟨hem, rfl⟩)⟩

/-- Witness for C7 at `lmax = 1`, `cl = [3]`, constant prior `7`. -/
theorem spec_C7_witness :
    set_signal_cov_by_cl (fun _ => (7:ℚ)) [3] 1 (realPos 0 1 1)
      = 1/2 * ([3] : List ℚ).getD 0 0
    ∧ set_signal_cov_by_cl (fun _ => (7:ℚ)) [3] 1 0 = (fun _ => (7:ℚ)) 0 := by
  have h := spec_C7 (fun _ => (7:ℚ)) [3] 1 (by norm_num) (by norm_num)
  exact ⟨(h.1 0 1 (by norm_num) (by norm_num) (by norm_num)).1, h.2.2⟩

/-- C8: the realified-vector and HEALPix-style complex half-sphere
representations convert losslessly in both directions: unpacking then
packing a length-`(lmax+1)^2` real vector is the identity, and packing
then unpacking a complex half-sphere array whose `em = 0` imaginary parts
vanish is the identity. -/
theorem spec_C8 (lmax : ℕ) :
    (∀ a : List ℚ, a.length = (lmax+1)^2 → healpy2alms (alms2healpy a lmax) = a)
    ∧ (∀ h : List (ℚ × ℚ), h.length = (lmax+1)*(lmax+2)/2 →
        (∀ p ∈ h.take (lmax+1), p.2 = 0) →
        alms2healpy (healpy2alms h) lmax = h) :=
  ⟨fun a ha => healpy2alms_alms2healpy lmax a ha,
   fun h h1 h2 => alms2healpy_healpy2alms lmax h h1 h2⟩

/-- Witness for C8 at `lmax = 1` with concrete vectors. -/
theorem spec_C8_witness :
    healpy2alms (alms2healpy [1, 2, 3, 4] 1) = [1, 2, 3, 4]
    ∧ alms2healpy (healpy2alms [(1, 0), (2, 0), (3, 4)]) 1 = [(1, 0), (2, 0), (3, 4)] :=
  ⟨(spec_C8 1).1 [1, 2, 3, 4] (by norm_num),
   (spec_C8 1).2 [(1, 0), (2, 0), (3, 4)] (by norm_num) (by simp)⟩

/-- C9: `get_idx_ml` succeeds exactly on `0 ≤ em ≤ ell ≤ lmax` and fails
(fatally, modelled as `none`) on every other input: `em > ell`, negative
`em` or `ell`, or `ell > lmax`. -/
theorem spec_C9 (em ell : ℤ) (lmax : ℕ) :
    (get_idx_ml em ell lmax).isSome ↔ (0 ≤ em ∧ em ≤ ell ∧ ell ≤ (lmax:ℤ)) := by
  constructor
  · intro h
    by_contra hcon
    rw [get_idx_ml_invalid em ell lmax hcon] at h
    simp at h
  · rintro ⟨h0, h1, h2⟩
    have he : em = ((em.toNat : ℕ) : ℤ) := by omega
    have hl : ell = ((ell.toNat : ℕ) : ℤ) := by omega
    rw [he, hl, get_idx_ml_valid em.toNat ell.toNat lmax (by omega) (by omega)]
    rfl

/-- C10: the per-iteration seeding function is
`(job_id, iteration) = 100*job_id + iteration` for both the alm draws and
the C_ell draws; it is not injective ((j, 100) and (j+1, 0) collide), and
any two iterations whose pairs collide receive the same seed, hence
identical fluctuation vectors `omega_0, omega_1` and identical
inverse-gamma streams. -/
theorem spec_C10 (j1 s1 j2 s2 : ℕ) (hne : (j1, s1) ≠ (j2, s2))
    (hcoll : 100*j1 + s1 = 100*j2 + s2) :
    (∀ j i : ℕ, alm_random_seed j i = 100*j + i ∧ cl_random_seed j i = 100*j + i)
    ∧ alm_random_seed j1 s1 = alm_random_seed j2 s2
    ∧ cl_random_seed j1 s1 = cl_random_seed j2 s2
    ∧ (∀ j : ℕ, alm_random_seed j 100 = alm_random_seed (j+1) 0)
    ∧ (∀ P : GibbsParams,
        P.omega0 (alm_random_seed j1 s1) = P.omega0 (alm_random_seed j2 s2)
        ∧ P.omega1re (alm_random_seed j1 s1) = P.omega1re (alm_random_seed j2 s2)
        ∧ P.omega1im (alm_random_seed j1 s1) = P.omega1im (alm_random_seed j2 s2)
        ∧ P.rvs (cl_random_seed j1 s1) = P.rvs (cl_random_seed j2 s2)) := by
  have hseed : alm_random_seed j1 s1 = alm_random_seed j2 s2 := by
    rw [alm_random_seed, alm_random_seed]
    omega
  have hcl : cl_random_seed j1 s1 = cl_random_seed j2 s2 := by
    rw [cl_random_seed, cl_random_seed]
    omega
  refine ⟨fun j i => ⟨rfl, rfl⟩, hseed, hcl, fun j => ?_, fun P => ?_⟩
  · rw [alm_random_seed, alm_random_seed]
    omega
  · exact ⟨by rw [hseed], by rw [hseed], by rw [hseed], by rw [hcl]⟩

/-- Witness for C10 at the collision `(0, 100)` vs `(1, 0)`. -/
theorem spec_C10_witness :
    alm_random_seed 0 100 = alm_random_seed 1 0 :=
  (spec_C10 0 100 1 0 (by decide) (by norm_num)).2.1
